import Mathlib

/-!
Shallow embedding of the labelled multi-dimensional dataset engine
(`dimensions.h`, `tags.h`, `value_with_delta.h`, `variable.cpp`,
`dataset.h`).

Element values of `double` Variables are modelled as rationals: every
kernel in the source (`ArithmeticHelper`, `RebinHelper`, the copy and view
machinery) is a template over the element type, so the algorithms are
independent of the concrete numeric type, and all inputs appearing in the
spec and in the repository tests are exactly representable.

Parts of the repository that are referenced but not present under `src/`
(`dimensions.cpp`, `variable_view.h`, `dataset.cpp`, `unit.h`) are
modelled from the spec; each such definition carries a doc comment that
says so.
-/

set_option allowUnsafeReducibility true
attribute [semireducible] Rat.add Rat.sub Rat.mul Rat.inv Rat.ofScientific

namespace DatasetProto

/-- Dimension labels (`enum class Dim`, dimension.h; the members used by
the spec and the tests). -/
inductive Dim where
  | X | Y | Z | Tof | Q | Spectrum | Event | Row | Detector | Invalid
deriving DecidableEq, Repr, Fintype

/-- Modelled from the spec: unit identifiers (§4.B; `unit.h` is not under
`src/`).  Minimal closed set exercised by the repository tests. -/
inductive UnitId where
  | Dimensionless | Length | Area
deriving DecidableEq, Repr

/-- Modelled from the spec: the closed unit multiplication table (§4.B);
products outside the table fail. -/
def unitMul : UnitId → UnitId → Option UnitId
  | UnitId.Dimensionless, u => some u
  | u, UnitId.Dimensionless => some u
  | UnitId.Length, UnitId.Length => some UnitId.Area
  | _, _ => none

/-- Errors thrown by the `Dimensions` initializer-list constructor
(dimensions.h:29-43). -/
inductive DimErr where
  | TooManyDimensions | InvalidDim | NegativeExtent
deriving DecidableEq, Repr

/-- A `Dimensions` value: ordered list of (Dim, extent) pairs, the first
entry outermost (spec §3: row-major offset of an N-index `i` is
`sum_k i_k * product_(j>k) extent_j`). -/
abbrev Dimensions := List (Dim × Nat)

/-- The per-entry loop of the `Dimensions` constructor
(dimensions.h:34-42): each entry is checked for `Dim::Invalid` and then
for a negative extent, in list order. -/
def mkDimensionsLoop : List (Dim × Int) → Except DimErr Dimensions
  | [] => Except.ok []
  | p :: rest =>
    if p.1 = Dim.Invalid then Except.error DimErr.InvalidDim
    else if p.2 < 0 then Except.error DimErr.NegativeExtent
    else
      match mkDimensionsLoop rest with
      | Except.error e => Except.error e
      | Except.ok ds => Except.ok ((p.1, p.2.toNat) :: ds)

/-- The `Dimensions` initializer-list constructor (dimensions.h:29-43).
Checks, in source order: more than 6 entries (`TooManyDimensions`), then
per entry `Dim::Invalid` and a negative extent.  The source carries
`// TODO Check for duplicate dimension.`: duplicate Dims are accepted. -/
def mkDimensions (l : List (Dim × Int)) : Except DimErr Dimensions :=
  if l.length > 6 then Except.error DimErr.TooManyDimensions
  else mkDimensionsLoop l

namespace Dimensions

/-- `Dimensions::volume` (dimensions.h:66-71): product of the extents,
`1` when empty. -/
def volume : Dimensions → Nat
  | [] => 1
  | p :: rest => p.2 * volume rest

/-- `Dimensions::contains(Dim)` (dimensions.h:95-100). -/
def containsD (d : Dimensions) (t : Dim) : Bool :=
  d.any fun p => p.1 = t

/-- Extent lookup: `Dimensions::operator[]` / `size(Dim)` as an `Option`
(first occurrence, as in the source scan). -/
def dfind (d : Dimensions) (t : Dim) : Option Nat :=
  (d.find? fun p => p.1 = t).map Prod.snd

/-- `Dimensions::size(Dim)` with default 0 (always used guarded by
`contains` in the source). -/
def sizeD (d : Dimensions) (t : Dim) : Nat :=
  (dfind d t).getD 0

/-- Modelled from the spec: `Dimensions::offset(Dim)` (§3, defined in the
missing dimensions.cpp): product of the extents strictly after the first
occurrence of `t`. -/
def offsetOf : Dimensions → Dim → Nat
  | [], _ => 1
  | p :: rest, t => if p.1 = t then volume rest else offsetOf rest t

/-- Modelled from the spec: `Dimensions::resize(Dim, n)` keeps the Dim's
position (§4.A; defined in the missing dimensions.cpp). -/
def resize (d : Dimensions) (t : Dim) (n : Nat) : Dimensions :=
  d.map fun p => if p.1 = t then (p.1, n) else p

/-- Modelled from the spec: `Dimensions::erase(Dim)` removes the entry
and shifts later Dims leftward (§4.A). -/
def eraseD (d : Dimensions) (t : Dim) : Dimensions :=
  d.filter fun p => ¬ p.1 = t

/-- Modelled from the spec and the repository tests: `Dimensions::add`
places the new Dim outermost (the concatenate test
`TEST(Variable, concatenate)` pins this down: `concat(ab, ba, Q)` has
shape `(Q 2, Tof 2)` with flat data `1 2 2 1`, and a further concatenate
along `Tof` yields `1 2 1 2 2 1 2 1`, which requires `Q` to be the
outermost dimension of `abba`). -/
def add (d : Dimensions) (t : Dim) (n : Nat) : Dimensions :=
  (t, n) :: d

/-- `Dimensions::label(i)` as an `Option`. -/
def labelAt (d : Dimensions) (i : Nat) : Option Dim :=
  (d.get? i).map Prod.fst

/-- Modelled from the spec: `contains(other)` holds iff every
(Dim, extent) of `other` appears in `self` with identical extent (§3;
defined in the missing dimensions.cpp). -/
def containsDims (d other : Dimensions) : Bool :=
  other.all fun p => dfind d p.1 = some p.2

/-- The labels of a `Dimensions` value. -/
def labels (d : Dimensions) : List Dim := d.map Prod.fst

end Dimensions

open Dimensions

/-- Row-major flat position of an index vector (spec §3: offset of an
N-index `i` is `sum_k i_k * product_(j>k) extent_j`).  Index vectors are
total functions `Dim → Nat`; only the listed labels contribute. -/
def flatPos : Dimensions → (Dim → Nat) → Nat
  | [], _ => 0
  | p :: rest, ix => ix p.1 * volume rest + flatPos rest ix

/-- Inverse of `flatPos`: decompose a flat position into an index vector
(unlisted Dims map to 0).  This is the multi-dimensional index used by
the strided-view iteration (spec §4.D, §9). -/
def multiIndex : Dimensions → Nat → Dim → Nat
  | [], _, _ => 0
  | p :: rest, q, t =>
    if t = p.1 then q / volume rest else multiIndex rest (q % volume rest) t

/-- An index vector is valid for `d` when each component is below the
extent. -/
def ValidIx (d : Dimensions) (ix : Dim → Nat) : Prop :=
  ∀ p ∈ d, ix p.1 < p.2

instance (d : Dimensions) (ix : Dim → Nat) : Decidable (ValidIx d ix) :=
  List.decidableBAll _ d

/-- An index vector is supported on `d` when it vanishes outside the
listed labels. -/
def SuppIx (d : Dimensions) (ix : Dim → Nat) : Prop :=
  ∀ t : Dim, ¬ containsD d t → ix t = 0

instance (d : Dimensions) (ix : Dim → Nat) : Decidable (SuppIx d ix) :=
  Fintype.decidableForallFintype

/-- Generate the flat row-major data of a multi-dimensional array from a
cell function.  Models writing through a strided view covering the whole
target (spec §4.D; variable_view.h is not under `src/`). -/
def mkData : Dimensions → ((Dim → Nat) → α) → List α
  | [], f => [f fun _ => 0]
  | p :: rest, f =>
    (List.range p.2).flatMap fun i =>
      mkData rest fun ix => f fun t => if t = p.1 then i else ix t

/-- Restrict an index vector to the labels of `d` (zero elsewhere). -/
def restrictIx (d : Dimensions) (ix : Dim → Nat) (t : Dim) : Nat :=
  if containsD d t then ix t else 0

/-- `ValueWithDelta<double>` (value_with_delta.h), the element type of
`Coord::FuzzyTemperature` Variables. -/
structure ValueWithDelta where
  value : ℚ
  delta : ℚ
deriving DecidableEq, Repr

/-- The `ValueWithDelta` default constructor: value 0, delta 0
(value_with_delta.h:18-19). -/
def vwdDefault : ValueWithDelta := ⟨0, 0⟩

/-- `ValueWithDelta::operator==` (value_with_delta.h:13-15): holds iff the
absolute difference of the values is strictly below the larger delta. -/
def vwdEq (a b : ValueWithDelta) : Bool :=
  decide (|a.value - b.value| < max a.delta b.delta)

/-- Tag identifiers (tags.h; the members exercised by the spec and
tests). -/
inductive TagId where
  | CoordX | CoordY | CoordZ | CoordTof | CoordSpectrumNumber
  | CoordRowLabel | CoordFuzzyTemperature
  | DataValue | DataVariance | DataTof | DataPulseTime | DataInt
  | DataString | DataEvents | DataTable
deriving DecidableEq, Repr, Fintype

/-- Element-type identifiers (the `using type = ...` members of the tag
structs in tags.h, collapsed to the families this embedding carries). -/
inductive ElemType where
  | double | int | str | vwd | nested
deriving DecidableEq, Repr

/-- The element type of each tag (tags.h `using type = ...`). -/
def elemTypeOf : TagId → ElemType
  | TagId.CoordX => ElemType.double
  | TagId.CoordY => ElemType.double
  | TagId.CoordZ => ElemType.double
  | TagId.CoordTof => ElemType.double
  | TagId.CoordSpectrumNumber => ElemType.int
  | TagId.CoordRowLabel => ElemType.str
  | TagId.CoordFuzzyTemperature => ElemType.vwd
  | TagId.DataValue => ElemType.double
  | TagId.DataVariance => ElemType.double
  | TagId.DataTof => ElemType.double
  | TagId.DataPulseTime => ElemType.double
  | TagId.DataInt => ElemType.int
  | TagId.DataString => ElemType.str
  | TagId.DataEvents => ElemType.nested
  | TagId.DataTable => ElemType.nested

/-- `is_coord` (tags.h:241-243): the tag belongs to the `Coord` family. -/
def isCoord : TagId → Bool
  | TagId.CoordX | TagId.CoordY | TagId.CoordZ | TagId.CoordTof
  | TagId.CoordSpectrumNumber | TagId.CoordRowLabel
  | TagId.CoordFuzzyTemperature => true
  | _ => false

/-- `is_dimension_coordinate` (tags.h:263-270). -/
def isDimensionCoordinate : TagId → Bool
  | TagId.CoordX | TagId.CoordY | TagId.CoordZ | TagId.CoordTof
  | TagId.CoordSpectrumNumber | TagId.CoordRowLabel => true
  | _ => false

/-- `coordinate_dimension` / the `coordDimension` table (tags.h:272-295). -/
def coordDimension : TagId → Dim
  | TagId.CoordX => Dim.X
  | TagId.CoordY => Dim.Y
  | TagId.CoordZ => Dim.Z
  | TagId.CoordTof => Dim.Tof
  | TagId.CoordSpectrumNumber => Dim.Spectrum
  | TagId.CoordRowLabel => Dim.Row
  | _ => Dim.Invalid

/-- Default unit of each tag (`static constexpr auto unit`, tags.h). -/
def defaultUnit : TagId → UnitId
  | TagId.CoordX | TagId.CoordY | TagId.CoordZ => UnitId.Length
  | _ => UnitId.Dimensionless

/-- A Variable of a nested event-list / table Dataset.  The nested
Datasets appearing in `Data::Events` Variables hold only 1-D scalar
(double) Variables (`Data::Tof`, `Data::PulseTime`), so the embedding
stratifies the recursion: nested Variables carry rational data only. -/
structure EvVar where
  type : TagId
  name : String
  unit : UnitId
  dims : Dimensions
  values : List ℚ
deriving DecidableEq, Repr

/-- A nested Dataset as stored inside a `Data::Events` Variable: its
shared dimension registry plus its Variables. -/
structure EvList where
  registry : Dimensions
  vars : List EvVar
deriving DecidableEq, Repr

/-- Type-erased Variable payload: the closed sum of element-type variants
(spec §9; the source hides these behind `VariableConcept`). -/
inductive VarData where
  | doubles (xs : List ℚ)
  | ints (xs : List Int)
  | strs (xs : List String)
  | vwds (xs : List ValueWithDelta)
  | events (xs : List EvList)
deriving DecidableEq, Repr

/-- A single cell of a Variable, across element types. -/
inductive Cell where
  | q (x : ℚ) | i (x : Int) | s (x : String) | v (x : ValueWithDelta)
  | e (x : EvList)
deriving DecidableEq, Repr

namespace VarData

/-- Number of stored elements (`VariableConcept::size`). -/
def length : VarData → Nat
  | doubles xs => xs.length
  | ints xs => xs.length
  | strs xs => xs.length
  | vwds xs => xs.length
  | events xs => xs.length

/-- Read the cell at a flat position (default-padded, mirroring that the
source never reads out of range on well-formed Variables). -/
def cell : VarData → Nat → Cell
  | doubles xs, p => Cell.q (xs.getD p 0)
  | ints xs, p => Cell.i (xs.getD p 0)
  | strs xs, p => Cell.s (xs.getD p "")
  | vwds xs, p => Cell.v (xs.getD p vwdDefault)
  | events xs, p => Cell.e (xs.getD p ⟨[], []⟩)

end VarData

/-- The type-erased `Variable` (variable.h declaration, variable.cpp):
tag id, name, unit, Dimensions and owning storage. -/
structure Variable where
  type : TagId
  name : String
  unit : UnitId
  dims : Dimensions
  dat : VarData
deriving DecidableEq, Repr

/-- The element-type variant a payload carries. -/
def VarData.etype : VarData → ElemType
  | VarData.doubles _ => ElemType.double
  | VarData.ints _ => ElemType.int
  | VarData.strs _ => ElemType.str
  | VarData.vwds _ => ElemType.vwd
  | VarData.events _ => ElemType.nested

/-- Well-formedness maintained by the source constructors
(`VariableModel` checks `dimensions().volume() == m_model.size()`,
variable.cpp:410-415): storage length equals the volume, labels are
distinct, and the payload variant matches the tag's element type. -/
def WFVar (v : Variable) : Prop :=
  v.dat.length = volume v.dims ∧ (labels v.dims).Nodup ∧
    v.dat.etype = elemTypeOf v.type

instance (v : Variable) : Decidable (WFVar v) := by
  unfold WFVar
  infer_instance

/-- Read a Variable cell at an index vector (row-major, spec §3). -/
def Variable.readIx (v : Variable) (ix : Dim → Nat) : Cell :=
  v.dat.cell (flatPos v.dims ix)

/-- Read a double Variable value at an index vector. -/
def Variable.qIx (v : Variable) (ix : Dim → Nat) : ℚ :=
  match v.dat with
  | VarData.doubles xs => xs.getD (flatPos v.dims ix) 0
  | _ => 0

/-- `makeVariable<Tag>(dims, values)` for double tags (variable.h):
default unit from the tag, empty name. -/
def makeVariable (t : TagId) (d : Dimensions) (xs : List ℚ) : Variable :=
  ⟨t, "", defaultUnit t, d, VarData.doubles xs⟩

deriving instance DecidableEq for Except

instance : Inhabited ValueWithDelta := ⟨vwdDefault⟩

instance : Inhabited EvList := ⟨⟨[], []⟩⟩

/-- Errors surfaced by Variable/Dataset operations (§7; the source throws
`std::runtime_error` with a distinct message per site). -/
inductive VErr where
  | UnitMismatch | DimensionMismatch | TypeMismatch | NonArithmeticType
  | StringsNotAddable | EventsSubtract | EventsMultiply | NestedDimNot1
  | UnitArithmetic | ConcatTypeMismatch | ConcatUnitMismatch
  | ConcatNameMismatch | ConcatDimMismatch | ConcatExtentMismatch
  | NestedMismatch | EmptyEvents | NotFound | NotUnique | DuplicateEntry
  | ExtentMismatch
deriving DecidableEq, Repr

/-- The three in-place arithmetic operators. -/
inductive ArithOp where
  | add | sub | mul
deriving DecidableEq, Repr

/-- `std::plus` / `std::minus` / `std::multiplies` on double elements. -/
def ArithOp.q : ArithOp → ℚ → ℚ → ℚ
  | ArithOp.add, a, b => a + b
  | ArithOp.sub, a, b => a - b
  | ArithOp.mul, a, b => a * b

/-- The same operators on int64 elements. -/
def ArithOp.z : ArithOp → Int → Int → Int
  | ArithOp.add, a, b => a + b
  | ArithOp.sub, a, b => a - b
  | ArithOp.mul, a, b => a * b

/-- Modelled from the spec: element `p` of a strided view of `src`
projected to `iterDims` (§4.D, §9; variable_view.h is not under `src/`):
the flat position `p` is decomposed along `iterDims` and mapped back
through the source dimensions, so Dims missing from the source read with
stride 0 (broadcast) and permuted Dims transpose. -/
def viewAt (dflt : α) (srcDims : Dimensions) (src : List α)
    (iterDims : Dimensions) (p : Nat) : α :=
  src.getD (flatPos srcDims (multiIndex iterDims p)) dflt

/-- `ArithmeticHelper<Op, T>::apply` (variable.cpp:21-25): a
`std::transform` over the lhs span with the rhs read through a view
projected to the lhs Dimensions.  The contiguous fast paths of
`VariableModel::apply` (variable.cpp:502-532) coincide with this: on
equal dimensions the view map is the identity. -/
def applySep (f : α → α → α) (dflt : α) (adims : Dimensions)
    (xs : List α) (bdims : Dimensions) (ys : List α) : List α :=
  (List.range (volume adims)).map fun p =>
    f (xs.getD p dflt) (viewAt dflt bdims ys adims p)

/-- `VariableModel::apply<Op>` together with the `ArithmeticHelper`
specialisations (variable.cpp:21-39, 159-180): numeric payloads combine
element-wise; strings fail with the append hint
(variable.cpp:176-180); `ValueWithDelta` and the other disabled types
fail as non-arithmetic (variable.cpp:168-174); a payload-variant
mismatch is the `std::bad_cast` rethrown at variable.cpp:526-530.
Nested-dataset payloads do not reach this helper on well-formed
Variables (the events/table branch of the operators is taken first). -/
def applyArith (op : ArithOp) (adims : Dimensions) (ad : VarData)
    (bdims : Dimensions) (bd : VarData) : Except VErr VarData :=
  match ad, bd with
  | VarData.doubles xs, VarData.doubles ys =>
    Except.ok (VarData.doubles (applySep op.q 0 adims xs bdims ys))
  | VarData.ints xs, VarData.ints ys =>
    Except.ok (VarData.ints (applySep op.z 0 adims xs bdims ys))
  | VarData.strs _, VarData.strs _ => Except.error VErr.StringsNotAddable
  | VarData.vwds _, VarData.vwds _ => Except.error VErr.NonArithmeticType
  | VarData.events _, VarData.events _ => Except.error VErr.NonArithmeticType
  | _, _ => Except.error VErr.TypeMismatch

/-- Modelled from the spec: `concatenate(Dim, dims1, dims2)` on
`Dimensions` (§4.A): extent along `dim` is the sum, absence counting as
extent 1. -/
def dimsConcat (dim : Dim) (d1 d2 : Dimensions) : Dimensions :=
  let e1 := if containsD d1 dim then sizeD d1 dim else 1
  let e2 := if containsD d2 dim then sizeD d2 dim else 1
  if containsD d1 dim then Dimensions.resize d1 dim (e1 + e2)
  else Dimensions.add d1 dim (e1 + e2)

/-- Modelled from the spec: concatenation of two matched nested
Variables of an event-list Dataset along the event dimension (§4.H; the
Dataset-level `concatenate` lives in the missing dataset.cpp).  Requires
identical tag, unit and name as Variable concatenation does, and both
operands 1-D along the join dimension (the shape event lists have). -/
def evVarConcat (v1 v2 : EvVar) (dim : Dim) : Except VErr EvVar :=
  if v1.type ≠ v2.type then Except.error VErr.ConcatTypeMismatch
  else if v1.unit ≠ v2.unit then Except.error VErr.ConcatUnitMismatch
  else if v1.name ≠ v2.name then Except.error VErr.ConcatNameMismatch
  else
    match v1.dims, v2.dims with
    | [(d1, n1)], [(d2, n2)] =>
      if d1 = dim ∧ d2 = dim then
        Except.ok ⟨v1.type, v1.name, v1.unit, [(dim, n1 + n2)],
          v1.values ++ v2.values⟩
      else Except.error VErr.NestedMismatch
    | _, _ => Except.error VErr.NestedMismatch

/-- Modelled from the spec: pair the Variables of two event-list
Datasets by (tag, name) identity and concatenate each pair (§4.H). -/
def evConcatVars (vs2 : List EvVar) (dim : Dim) :
    List EvVar → Except VErr (List EvVar)
  | [] => Except.ok []
  | v1 :: rest =>
    match vs2.find? fun v2 => v2.type = v1.type ∧ v2.name = v1.name with
    | none => Except.error VErr.NestedMismatch
    | some v2 =>
      match evVarConcat v1 v2 dim with
      | Except.error e => Except.error e
      | Except.ok w =>
        match evConcatVars vs2 dim rest with
        | Except.error e => Except.error e
        | Except.ok ws => Except.ok (w :: ws)

/-- Modelled from the spec: `concatenate(d1, d2, Dim)` for the nested
event-list Datasets (§4.H): pairwise Variable concatenation, registry
extent along `Dim` adds. -/
def evConcat (e1 e2 : EvList) (dim : Dim) : Except VErr EvList :=
  if e1.vars.length ≠ e2.vars.length then Except.error VErr.NestedMismatch
  else
    match evConcatVars e2.vars dim e1.vars with
    | Except.error e => Except.error e
    | Except.ok ws =>
      Except.ok ⟨dimsConcat dim e1.registry e2.registry, ws⟩

/-- The per-spectrum loop of the `Data::Events` branch of
`Variable::operator+=` (variable.cpp:753-755):
`datasets[i] = concatenate(datasets[i], otherDatasets[i], dim)`.  The
loop runs in index order; on a failure the already written entries keep
their new values and the remaining ones are unchanged. -/
def eventsConcatLoop (dim : Dim) :
    List EvList → List EvList → Option VErr × List EvList
  | [], _ => (none, [])
  | x :: xs, [] => (some VErr.EmptyEvents, x :: xs)
  | x :: xs, y :: ys =>
    match evConcat x y dim with
    | Except.error e => (some e, x :: xs)
    | Except.ok z =>
      match eventsConcatLoop dim xs ys with
      | (r, rest) => (r, z :: rest)

/-- The `Data::Events`/`Data::Table` branch of `Variable::operator+=`
(variable.cpp:740-759): requires equal dimensions, nested Datasets must
be 1-D, and each nested Dataset is replaced by the concatenation with
its partner along the nested Dataset's single dimension
(`datasets[0].dimensions().label(0)`).  An empty nested list would make
`datasets[0]` an out-of-range access in the source; modelled as an
error. -/
def eventsPlus (a : Variable) (xs ys : List EvList) :
    Option VErr × Variable :=
  if ys.length > 0 ∧ (ys.headD ⟨[], []⟩).registry.length ≠ 1 then
    (some VErr.NestedDimNot1, a)
  else
    match xs with
    | [] => (some VErr.EmptyEvents, a)
    | x0 :: _ =>
      match labelAt x0.registry 0 with
      | none => (some VErr.EmptyEvents, a)
      | some dim =>
        match eventsConcatLoop dim xs ys with
        | (none, zs) => (none, { a with dat := VarData.events zs })
        | (some e, zs) => (some e, { a with dat := VarData.events zs })

/-- `Variable::operator+=` (variable.cpp:725-763).  The result pair is
the optional error and the final state of the left-hand Variable: the
source mutates in place, and a throw leaves the state reached so far.
The copy-on-write `m_object.access()` uniquifies the lhs storage first,
so the rhs of a Variable-Variable call is never aliased with the
mutated buffer. -/
def plusAssign (a b : Variable) : Option VErr × Variable :=
  if a.unit ≠ b.unit then (some VErr.UnitMismatch, a)
  else if ¬ (a.type = TagId.DataEvents ∨ a.type = TagId.DataTable) then
    if containsDims a.dims b.dims then
      match applyArith ArithOp.add a.dims a.dat b.dims b.dat with
      | Except.ok d => (none, { a with dat := d })
      | Except.error e => (some e, a)
    else (some VErr.DimensionMismatch, a)
  else
    if a.dims = b.dims then
      match a.dat, b.dat with
      | VarData.events xs, VarData.events ys => eventsPlus a xs ys
      | _, _ => (some VErr.TypeMismatch, a)
    else (some VErr.DimensionMismatch, a)

/-- `Variable::operator-=` (variable.cpp:769-782): unit check, shape
check, events rejection, then element-wise subtraction. -/
def minusAssign (a b : Variable) : Option VErr × Variable :=
  if a.unit ≠ b.unit then (some VErr.UnitMismatch, a)
  else if containsDims a.dims b.dims then
    if a.type = TagId.DataEvents then (some VErr.EventsSubtract, a)
    else
      match applyArith ArithOp.sub a.dims a.dat b.dims b.dat with
      | Except.ok d => (none, { a with dat := d })
      | Except.error e => (some e, a)
  else (some VErr.DimensionMismatch, a)

/-- `Variable::operator*=` (variable.cpp:788-797): shape check, events
rejection, then `m_unit = unit() * other.unit()` and only afterwards the
element-wise multiplication — a failing multiplication therefore leaves
the unit already replaced.  A unit product outside the closed table
throws while computing the new unit, before `m_unit` is assigned. -/
def timesAssign (a b : Variable) : Option VErr × Variable :=
  if ¬ containsDims a.dims b.dims then (some VErr.DimensionMismatch, a)
  else if a.type = TagId.DataEvents then (some VErr.EventsMultiply, a)
  else
    match unitMul a.unit b.unit with
    | none => (some VErr.UnitArithmetic, a)
    | some u =>
      match applyArith ArithOp.mul a.dims a.dat b.dims b.dat with
      | Except.ok d => (none, { a with unit := u, dat := d })
      | Except.error e => (some e, { a with unit := u })

/-- Writing the concatenation of two sources into a freshly allocated
output along `dim`: positions with `dim`-component below `e1` read the
first source, the rest read the second, shifted (the two `copy` calls of
`concatenate`, variable.cpp:1162-1163, through strided views; the view
machinery is modelled from spec §4.D since variable_view.h is not under
`src/`).  A source that lacks `dim` is broadcast into its slab. -/
def concatCore (dflt : α) (d1 : Dimensions) (xs : List α)
    (d2 : Dimensions) (ys : List α) (outDims : Dimensions) (dim : Dim)
    (e1 : Nat) : List α :=
  mkData outDims fun ix =>
    if ix dim < e1 then xs.getD (flatPos d1 ix) dflt
    else ys.getD
      (flatPos d2 fun t => if t = dim then ix dim - e1 else ix t) dflt

/-- `concatCore` lifted over the payload variants. -/
def concatData (d1 : Dimensions) (ad : VarData) (d2 : Dimensions)
    (bd : VarData) (outDims : Dimensions) (dim : Dim) (e1 : Nat) :
    Except VErr VarData :=
  match ad, bd with
  | VarData.doubles xs, VarData.doubles ys =>
    Except.ok (VarData.doubles (concatCore 0 d1 xs d2 ys outDims dim e1))
  | VarData.ints xs, VarData.ints ys =>
    Except.ok (VarData.ints (concatCore 0 d1 xs d2 ys outDims dim e1))
  | VarData.strs xs, VarData.strs ys =>
    Except.ok (VarData.strs (concatCore "" d1 xs d2 ys outDims dim e1))
  | VarData.vwds xs, VarData.vwds ys =>
    Except.ok (VarData.vwds (concatCore vwdDefault d1 xs d2 ys outDims dim e1))
  | VarData.events xs, VarData.events ys =>
    Except.ok (VarData.events (concatCore ⟨[], []⟩ d1 xs d2 ys outDims dim e1))
  | _, _ => Except.error VErr.TypeMismatch

/-- The per-operand join extent of `concatenate` computed exactly as in
the source (variable.cpp:1150-1155): `extent = 1` plus `size - 1` when
the Dim is present, in signed arithmetic. -/
def extentInt (d : Dimensions) (dim : Dim) : Int :=
  1 + (if containsD d dim then (sizeD d dim : Int) - 1 else 0)

/-- Extent with absence counting as 1 (`extent_or_1` of the spec). -/
def extOr1 (d : Dimensions) (dim : Dim) : Nat :=
  if containsD d dim then sizeD d dim else 1

/-- The output Dimensions of `concatenate` (variable.cpp:1148-1160):
`dim` resized in place when present in the first operand, added
(outermost) otherwise. -/
def concatOutDims (d1 d2 : Dimensions) (dim : Dim) : Dimensions :=
  if containsD d1 dim then
    Dimensions.resize d1 dim (extentInt d1 dim + extentInt d2 dim).toNat
  else Dimensions.add d1 dim (extentInt d1 dim + extentInt d2 dim).toNat

/-- `concatenate(a1, a2, dim)` (variable.cpp:1109-1166): identical tag,
unit and name; every Dim of `a1` other than `dim` must be present in
`a2` with equal extent; the ranks with `dim` discounted must agree
(which rules out extra Dims in `a2`); the result extent along `dim` is
`extent_or_1(a1) + extent_or_1(a2)`; the data is the two sources copied
into their slabs. -/
def concatenate (a1 a2 : Variable) (dim : Dim) : Except VErr Variable :=
  if a1.type ≠ a2.type then Except.error VErr.ConcatTypeMismatch
  else if a1.unit ≠ a2.unit then Except.error VErr.ConcatUnitMismatch
  else if a1.name ≠ a2.name then Except.error VErr.ConcatNameMismatch
  else if ¬ (a1.dims.all fun p =>
      decide (p.1 = dim) || containsD a2.dims p.1) then
    Except.error VErr.ConcatDimMismatch
  else if ¬ (a1.dims.all fun p =>
      decide (p.1 = dim) || decide (dfind a2.dims p.1 = some p.2)) then
    Except.error VErr.ConcatExtentMismatch
  else
    let size1 := a1.dims.length - (if containsD a1.dims dim then 1 else 0)
    let size2 := a2.dims.length - (if containsD a2.dims dim then 1 else 0)
    if size1 ≠ size2 then Except.error VErr.ConcatDimMismatch
    else
      match concatData a1.dims a1.dat a2.dims a2.dat
          (concatOutDims a1.dims a2.dims dim) dim
          (extentInt a1.dims dim).toNat with
      | Except.error e => Except.error e
      | Except.ok d =>
        Except.ok ⟨a1.type, a1.name, a1.unit,
          concatOutDims a1.dims a2.dims dim, d⟩

/-- Reading a range-slice: the hyper-slab `[b, b + extent)` along `dim`
copied out of the source (the `copy` call of `slice`,
variable.cpp:1090, through a view offset by `begin * offset(dim)`). -/
def sliceCore (dflt : α) (srcDims : Dimensions) (xs : List α)
    (outDims : Dimensions) (dim : Dim) (b : Nat) : List α :=
  mkData outDims fun ix =>
    xs.getD (flatPos srcDims fun t => if t = dim then ix t + b else ix t) dflt

/-- `sliceCore` lifted over the payload variants. -/
def sliceData (srcDims : Dimensions) (ad : VarData)
    (outDims : Dimensions) (dim : Dim) (b : Nat) : VarData :=
  match ad with
  | VarData.doubles xs => VarData.doubles (sliceCore 0 srcDims xs outDims dim b)
  | VarData.ints xs => VarData.ints (sliceCore 0 srcDims xs outDims dim b)
  | VarData.strs xs => VarData.strs (sliceCore "" srcDims xs outDims dim b)
  | VarData.vwds xs =>
    VarData.vwds (sliceCore vwdDefault srcDims xs outDims dim b)
  | VarData.events xs =>
    VarData.events (sliceCore ⟨[], []⟩ srcDims xs outDims dim b)

/-- `slice(var, dim, begin, end)` (variable.cpp:1082-1092): an owning
Variable with `dim` resized to `end - begin`; when the resize leaves the
dimensions unchanged the source Variable is returned as-is (the early
return at variable.cpp:1087-1088). -/
def sliceRange (v : Variable) (dim : Dim) (b e : Nat) : Variable :=
  let dims2 := Dimensions.resize v.dims dim (e - b)
  if dims2 = v.dims then v
  else ⟨v.type, v.name, v.unit, dims2, sliceData v.dims v.dat dims2 dim b⟩

/-- The middle-and-last pieces of `split` (variable.cpp:1102-1105). -/
def splitRest (v : Variable) (dim : Dim) : Nat → List Nat → List Variable
  | prev, [] => [sliceRange v dim prev (sizeD v.dims dim)]
  | prev, k :: rest => sliceRange v dim prev k :: splitRest v dim k rest

/-- `split(var, dim, indices)` (variable.cpp:1096-1107): successive
range slices at the given positions; an empty position list returns the
Variable itself. -/
def split (v : Variable) (dim : Dim) (ks : List Nat) : List Variable :=
  match ks with
  | [] => [v]
  | k :: rest => sliceRange v dim 0 k :: splitRest v dim k rest

/-- Folding `concatenate` over a list of Variables, left to right. -/
def concatList (dim : Dim) : List Variable → Except VErr Variable
  | [] => Except.error VErr.NotFound
  | v :: rest =>
    rest.foldlM (fun acc w => concatenate acc w dim) v

/-- `slice(var, dim, index)` (variable.cpp:1072-1080): an owning
Variable with `dim` erased, holding the hyper-slab at `index`. -/
def slicePoint (v : Variable) (dim : Dim) (idx : Nat) : Variable :=
  let dims2 := eraseD v.dims dim
  ⟨v.type, v.name, v.unit, dims2, sliceData v.dims v.dat dims2 dim idx⟩

/-- Offset into the parent buffer of element `ix` of a strided view:
each view Dim contributes its index times the parent stride
(spec §4.D/§9; variable_view.h is not under `src/`). -/
def strideSum (parentDims viewDims : Dimensions) (ix : Dim → Nat) : Nat :=
  viewDims.foldr (fun q acc => ix q.1 * offsetOf parentDims q.1 + acc) 0

/-- `var -= var(dim, idx)` where the right-hand side is a point-slice
view of `var` itself (the case of
`TEST(VariableSlice, self_overlapping_view_operation_broken)`):
`Variable::operator-=` reaches `ArithmeticHelper::apply`, a sequential
`std::transform` writing the lhs buffer front to back while the rhs view
reads the same buffer (the copy-on-write handle does not intervene: the
slice borrows the same Variable, so the use count is 1 and no copy is
made).  Element p of the view reads buffer position
`idx * offset(dim) + strides of the remaining Dims`, evaluated against
the buffer state already written by earlier steps. -/
def minusAssignSelfSlice (v : Variable) (dim : Dim) (idx : Nat) : Variable :=
  match v.dat with
  | VarData.doubles xs =>
    let zs := (List.range (volume v.dims)).foldl
      (fun st p =>
        st.set p (st.getD p 0 -
          st.getD (idx * offsetOf v.dims dim +
            strideSum v.dims (eraseD v.dims dim) (multiIndex v.dims p)) 0))
      xs
    ⟨v.type, v.name, v.unit, v.dims, VarData.doubles zs⟩
  | _ => v

/-- Strictly increasing position list bounded by `lo` and `hi`
(the requirement on `split` positions). -/
def strictChain : Nat → List Nat → Nat → Bool
  | lo, [], hi => lo < hi
  | lo, k :: rest, hi => decide (lo < k) && strictChain k rest hi

/-- Inner while loop of `RebinHelper::rebinInner` (variable.cpp:129-154),
fuel-based (each iteration advances `iold` or `inew`, so
`oldSize + newSize` fuel suffices); `delta` and `owidth` follow
variable.cpp:141-146 literally. -/
def rebinInnerLoop (xold xnew oldData : List ℚ)
    (oldOffset newOffset oldSize newSize : Nat) :
    Nat → Nat → Nat → List ℚ → List ℚ
  | 0, _, _, newData => newData
  | fuel + 1, iold, inew, newData =>
    if iold < oldSize ∧ inew < newSize then
      let xo_low := xold.getD iold 0
      let xo_high := xold.getD (iold + 1) 0
      let xn_low := xnew.getD inew 0
      let xn_high := xnew.getD (inew + 1) 0
      if xn_high ≤ xo_low then
        rebinInnerLoop xold xnew oldData oldOffset newOffset oldSize newSize
          fuel iold (inew + 1) newData
      else if xo_high ≤ xn_low then
        rebinInnerLoop xold xnew oldData oldOffset newOffset oldSize newSize
          fuel (iold + 1) inew newData
      else
        let delta := min xo_high xn_high - max xo_low xn_low
        let owidth := xo_high - xo_low
        let upd := newData.set (newOffset + inew)
          (newData.getD (newOffset + inew) 0 +
            oldData.getD (oldOffset + iold) 0 * delta / owidth)
        if xo_high < xn_high then
          rebinInnerLoop xold xnew oldData oldOffset newOffset oldSize newSize
            fuel (iold + 1) inew upd
        else
          rebinInnerLoop xold xnew oldData oldOffset newOffset oldSize newSize
            fuel iold (inew + 1) upd
    else newData

/-- The per-column loop of `RebinHelper::rebinInner` (variable.cpp:124-128):
column `c` uses `oldOffset = c * oldSize` and `newOffset = c * newSize`. -/
def rebinInnerCols (xold xnew oldData : List ℚ) (oldSize newSize : Nat) :
    Nat → Nat → List ℚ → List ℚ
  | _, 0, newData => newData
  | c, rem + 1, newData =>
    rebinInnerCols xold xnew oldData oldSize newSize (c + 1) rem
      (rebinInnerLoop xold xnew oldData (c * oldSize) (c * newSize)
        oldSize newSize (oldSize + newSize) 0 0 newData)

/-- `rebin(var, oldCoord, newCoord)` (variable.cpp:1168-1178) for double
data on the `rebinInner` dispatch (variable.cpp:538-543: the rebinned
dimension is the FIRST label of the result and both coords are 1-D).
The result dims resize `dim` (from `coordDimension` of the new coord's
tag) to `newCoord.size(dim) - 1`; `setDimensions` value-initialises the
buffer when the dims change (`clone` at variable.cpp:426-429 builds
`T(dims.volume())`) and keeps the old data otherwise (early return at
variable.cpp:638-639).  The strided general branch (variable.cpp:544-557,
built on the VariableView header absent from src/) is outside this
embedding and yields `none`. -/
def rebin (var oldCoord newCoord : Variable) : Option Variable :=
  let dim := coordDimension newCoord.type
  let dims := resize var.dims dim (sizeD newCoord.dims dim - 1)
  if labelAt dims 0 = some dim ∧ oldCoord.dims.length = 1 ∧
      newCoord.dims.length = 1 then
    match var.dat, oldCoord.dat, newCoord.dat with
    | VarData.doubles od, VarData.doubles xold, VarData.doubles xnew =>
      let oldSize := sizeD var.dims dim
      let newSize := sizeD dims dim
      let count := volume var.dims / oldSize
      let init := if dims = var.dims then od
                  else List.replicate (volume dims) (0 : ℚ)
      some ⟨var.type, var.name, var.unit, dims,
        VarData.doubles (rebinInnerCols xold xnew od oldSize newSize 0 count init)⟩
    | _, _, _ => none
  else none

/-- The specification's rebin formula, written from the spec's words
(for comparison with `rebin`): the output has `var`'s Dimensions with
the extent along `dim` replaced by `xnew.length - 1`, and the value in
output bin `n` for each fixed combination of the other Dims is
`Σ_i v_i · max(0, min(xo_hi_i, xn_hi_n) - max(xo_lo_i, xn_lo_n)) /
(xo_hi_i - xo_lo_i)`. -/
def rebinSpecData (v : Variable) (xold xnew : List ℚ) (dim : Dim) : List ℚ :=
  let dims := resize v.dims dim (xnew.length - 1)
  mkData dims fun ix =>
    let xn_lo := xnew.getD (ix dim) 0
    let xn_hi := xnew.getD (ix dim + 1) 0
    (List.range (sizeD v.dims dim)).foldl (fun acc i =>
      let xo_lo := xold.getD i 0
      let xo_hi := xold.getD (i + 1) 0
      acc + v.qIx (fun t => if t = dim then i else ix t) *
        max 0 (min xo_hi xn_hi - max xo_lo xn_lo) / (xo_hi - xo_lo)) 0

/-- A nested event-list Dataset of the shape the event tests build
(EventWorkspace_test.cpp): a single 1-D `Data::Tof` Variable along
`Dim::Tof`. -/
def mkEv (vs : List ℚ) : EvList :=
  ⟨[(Dim.Tof, vs.length)],
    [⟨TagId.DataTof, "", UnitId.Dimensionless, [(Dim.Tof, vs.length)], vs⟩]⟩

/-- A `Data::Events` Variable holding one event list per position of
`dd`. -/
def mkEventsVar (dd : Dimensions) (ls : List (List ℚ)) : Variable :=
  ⟨TagId.DataEvents, "", UnitId.Dimensionless, dd, VarData.events (ls.map mkEv)⟩

/-- The per-spectrum event-list lengths of an events Variable (what the
event test reads via `.get<Data::Events>()[i].get<Data::Tof>().size()`). -/
def eventListLengths (v : Variable) : List Nat :=
  match v.dat with
  | VarData.events xs =>
    xs.map fun e =>
      (e.vars.headD ⟨TagId.DataTof, "", UnitId.Dimensionless, [], []⟩).values.length
  | _ => []

/-- Modelled from the spec: the Dataset composition layer (§4.H): the
ordered Variable collection `m_variables` plus the shared dimension
registry `m_dimensions` (dataset.h:30-170; the out-of-line member
definitions live in a dataset.cpp absent from `src/`). -/
structure Dataset where
  registry : Dimensions
  vars : List Variable
deriving DecidableEq, Repr

/-- `v` is a dimension-coordinate Variable along `t` (tags.h
`is_dimension_coordinate` and `coordinate_dimension`). -/
def dimCoordAlong (v : Variable) (t : Dim) : Bool :=
  isDimensionCoordinate v.type && decide (coordDimension v.type = t)

/-- One Variable dimension entry checked against the registry (spec
§4.H Invariants, §8): the Dim must be registered; data Variables match
the registered extent exactly; a dimension-coordinate along that Dim
may carry the bin-edge extent `N + 1`. -/
def entryOk (reg : Dimensions) (v : Variable) (p : Dim × Nat) : Bool :=
  match dfind reg p.1 with
  | none => false
  | some n =>
    decide (p.2 = n) || (dimCoordAlong v p.1 && decide (p.2 = n + 1))

/-- The Dataset registry invariant (spec §4.H Invariants, §8): distinct
registry labels (one extent per Dim), pairwise-distinct Dims inside
every contained Variable, every Dim of every contained Variable
registered with a matching extent (`entryOk`), and every registered Dim
referenced by some contained Variable. -/
def datasetInv (d : Dataset) : Prop :=
  (labels d.registry).Nodup ∧
  (∀ v ∈ d.vars, (labels v.dims).Nodup) ∧
  (∀ v ∈ d.vars, ∀ p ∈ v.dims, entryOk d.registry v p = true) ∧
  ∀ t ∈ labels d.registry, ∃ v ∈ d.vars, containsD v.dims t = true

instance (d : Dataset) : Decidable (datasetInv d) := by
  unfold datasetInv
  infer_instance

/-- Modelled from the spec: merging one (Dim, extent) entry of an
inserted Variable into the registry (§4.H insert: "for each Dim, extent
must match the existing one (or be within ±1 for a dimension
coordinate — the edge case)").  An unregistered Dim is added with the
Variable's extent.  A registered Dim accepts the exact extent; a
dimension-coordinate along the Dim may exceed it by one (bin edges);
and in the opposite edge case — every present occupant of the Dim is an
edge coordinate of extent `N` while the new Variable carries the data
extent `N - 1` — the registry is relabelled to the data extent. -/
def mergeEntry (ws : List Variable) (v : Variable) (p : Dim × Nat)
    (reg : Dimensions) : Except VErr Dimensions :=
  match dfind reg p.1 with
  | none => Except.ok (Dimensions.add reg p.1 p.2)
  | some n =>
    if p.2 = n then Except.ok reg
    else if dimCoordAlong v p.1 ∧ p.2 = n + 1 then Except.ok reg
    else if p.2 + 1 = n ∧ ws.all fun w =>
        !containsD w.dims p.1 ||
          (dimCoordAlong w p.1 && decide (dfind w.dims p.1 = some n)) then
      Except.ok (Dimensions.resize reg p.1 p.2)
    else Except.error VErr.ExtentMismatch

/-- Modelled from the spec: folding `mergeEntry` over the inserted
Variable's dimension list (§4.H insert). -/
def mergeDims (ws : List Variable) (v : Variable) :
    List (Dim × Nat) → Dimensions → Except VErr Dimensions
  | [], reg => Except.ok reg
  | p :: rest, reg =>
    match mergeEntry ws v p reg with
    | Except.error e => Except.error e
    | Except.ok reg2 => mergeDims ws v rest reg2

/-- Modelled from the spec: `Dataset::insert(Variable)` (§4.H): reject
a duplicate entry (a coordinate tag may appear once; data/attributes
are keyed by tag and name), merge the Variable's dimensions into the
registry, append the Variable. -/
def dsInsert (d : Dataset) (v : Variable) : Except VErr Dataset :=
  if isCoord v.type ∧ d.vars.any fun w => w.type = v.type then
    Except.error VErr.DuplicateEntry
  else if ¬ isCoord v.type = true ∧ d.vars.any fun w =>
      w.type = v.type ∧ w.name = v.name then
    Except.error VErr.DuplicateEntry
  else
    match mergeDims d.vars v v.dims d.registry with
    | Except.error e => Except.error e
    | Except.ok reg => Except.ok ⟨reg, d.vars ++ [v]⟩

/-- Modelled from the spec: `Dataset::findUnique(tag)` (declared
dataset.h:155, semantics from §4.H find: exactly one Variable with the
tag id regardless of name, else NotFound / NotUnique). -/
def findUnique (d : Dataset) (t : TagId) : Except VErr Variable :=
  match d.vars.filter fun w => w.type = t with
  | [] => Except.error VErr.NotFound
  | [w] => Except.ok w
  | _ => Except.error VErr.NotUnique

/-- The registry pruning loop of `Dataset::erase<Tag>`
(dataset.h:102-109, in `src/`): for each Dim of the removed Variable,
drop it from the registry when no remaining Variable contains it. -/
def pruneReg (rest : List Variable) : List Dim → Dimensions → Dimensions
  | [], r => r
  | dim :: ds, r =>
    pruneReg rest ds
      (if rest.any fun w => containsD w.dims dim then r
       else Dimensions.eraseD r dim)

/-- `Dataset::erase<Tag>` (dataset.h:98-110, in `src/`): remove the
unique Variable with the tag, then prune the registry of its Dims that
no remaining Variable references (`findUnique` is modelled from the
spec, see above). -/
def dsErase (d : Dataset) (t : TagId) : Except VErr Dataset :=
  match findUnique d t with
  | Except.error e => Except.error e
  | Except.ok v =>
    let rest := d.vars.filter fun w => ¬ w.type = t
    Except.ok ⟨pruneReg rest (labels v.dims) d.registry, rest⟩

/-- `Dataset::merge` (dataset.h:114-117, in `src/`): insert every
Variable of the other Dataset in order. -/
def dsMerge (d : Dataset) : List Variable → Except VErr Dataset
  | [] => Except.ok d
  | v :: vs =>
    match dsInsert d v with
    | Except.error e => Except.error e
    | Except.ok d2 => dsMerge d2 vs

theorem volume_pos_of_valid {d : Dimensions} {ix : Dim → Nat}
    (h : ValidIx d ix) : 0 < volume d := by
  induction d with
  | nil => simp [volume]
  | cons p rest ih =>
    have hp := h p (by simp)
    have hrest : ValidIx rest ix := fun q hq => h q (by simp [hq])
    have := ih hrest
    have : 0 < p.2 := Nat.pos_of_ne_zero (by omega)
    simp only [volume]
    exact Nat.mul_pos this (ih hrest)

theorem flatPos_lt_volume {d : Dimensions} {ix : Dim → Nat}
    (h : ValidIx d ix) : flatPos d ix < volume d := by
  induction d with
  | nil => simp [flatPos, volume]
  | cons p rest ih =>
    have hp := h p (by simp)
    have hrest : ValidIx rest ix := fun q hq => h q (by simp [hq])
    have h1 := ih hrest
    simp only [flatPos, volume]
    calc ix p.1 * volume rest + flatPos rest ix
        < ix p.1 * volume rest + volume rest := by omega
      _ = (ix p.1 + 1) * volume rest := by ring
      _ ≤ p.2 * volume rest := Nat.mul_le_mul_right _ (by omega)

theorem flatPos_congr {d : Dimensions} {ix iy : Dim → Nat}
    (h : ∀ t, t ∈ labels d → ix t = iy t) : flatPos d ix = flatPos d iy := by
  induction d with
  | nil => rfl
  | cons p rest ih =>
    simp only [flatPos]
    rw [h p.1 (by simp [labels]), ih fun t ht => h t (by simp [labels] at ht ⊢; tauto)]

theorem mem_labels_of_containsD {d : Dimensions} {t : Dim}
    (h : containsD d t = true) : t ∈ labels d := by
  simp only [containsD, List.any_eq_true, decide_eq_true_eq] at h
  obtain ⟨p, hp, he⟩ := h
  simpa [labels, he] using List.mem_map_of_mem Prod.fst hp

theorem containsD_of_mem_labels {d : Dimensions} {t : Dim}
    (h : t ∈ labels d) : containsD d t = true := by
  simp only [labels, List.mem_map] at h
  obtain ⟨p, hp, he⟩ := h
  simp only [containsD, List.any_eq_true, decide_eq_true_eq]
  exact ⟨p, hp, he⟩

theorem flatPos_restrictIx (d : Dimensions) (ix : Dim → Nat) :
    flatPos d (restrictIx d ix) = flatPos d ix := by
  refine flatPos_congr fun t ht => ?_
  simp [restrictIx, containsD_of_mem_labels ht]

theorem length_flatMap_const {l : List β} {f : β → List α} {k : Nat}
    (h : ∀ b ∈ l, (f b).length = k) : (l.flatMap f).length = l.length * k := by
  induction l with
  | nil => simp
  | cons b rest ih =>
    simp only [List.flatMap_cons, List.length_append, List.length_cons]
    rw [h b (by simp), ih fun c hc => h c (by simp [hc])]
    ring

theorem mkData_length (d : Dimensions) (f : (Dim → Nat) → α) :
    (mkData d f).length = volume d := by
  induction d generalizing f with
  | nil => simp [mkData, volume]
  | cons p rest ih =>
    simp only [mkData, volume]
    rw [length_flatMap_const fun i _ => ih _]
    simp [List.length_range]

theorem containsD_iff_mem {d : Dimensions} {t : Dim} :
    containsD d t = true ↔ t ∈ labels d :=
  ⟨mem_labels_of_containsD, containsD_of_mem_labels⟩

theorem containsD_cons {p : Dim × Nat} {rest : Dimensions} {t : Dim} :
    containsD (p :: rest) t = (decide (p.1 = t) || containsD rest t) := by
  simp [containsD]

theorem flatMap_range_getD {g : Nat → List α} {k i r e : Nat} {dflt : α}
    (hlen : ∀ j, (g j).length = k) (hi : i < e) (hr : r < k) :
    ((List.range e).flatMap g).getD (i * k + r) dflt = (g i).getD r dflt := by
  induction e with
  | zero => omega
  | succ n ih =>
    rw [List.range_succ, List.flatMap_append]
    have hlen1 : ((List.range n).flatMap g).length = n * k := by
      rw [length_flatMap_const fun b _ => hlen b, List.length_range]
    rcases Nat.lt_or_ge i n with hin | hin
    · rw [List.getD_append]
      · exact ih hin
      · rw [hlen1]
        calc i * k + r < i * k + k := by omega
          _ = (i + 1) * k := by ring
          _ ≤ n * k := Nat.mul_le_mul_right _ (by omega)
    · have hieq : i = n := by omega
      subst hieq
      rw [List.getD_eq_getElem?_getD, List.getElem?_append_right (by omega),
        hlen1]
      simp only [List.flatMap_cons, List.flatMap_nil, List.append_nil]
      have hsub : i * k + r - i * k = r := by omega
      rw [hsub, ← List.getD_eq_getElem?_getD]

theorem mkData_getD_flatPos {d : Dimensions} {ix : Dim → Nat}
    (f : (Dim → Nat) → α) (dflt : α) (h : ValidIx d ix) :
    (mkData d f).getD (flatPos d ix) dflt = f (restrictIx d ix) := by
  induction d generalizing f with
  | nil =>
    simp only [mkData, flatPos, List.getD]
    have : restrictIx [] ix = fun _ => 0 := by
      funext t; simp [restrictIx, containsD]
    simp [this]
  | cons p rest ih =>
    have hp := h p (by simp)
    have hrest : ValidIx rest ix := fun q hq => h q (by simp [hq])
    simp only [mkData, flatPos]
    rw [flatMap_range_getD (fun j => mkData_length rest _) hp
      (flatPos_lt_volume hrest)]
    rw [ih _ hrest]
    congr 1
    funext t
    by_cases ht : t = p.1
    · subst ht; simp [restrictIx, containsD]
    · have hne : ¬ p.1 = t := fun he => ht he.symm
      simp [restrictIx, containsD_cons, ht, hne]

theorem flatMap_congr_mem {l : List β} {f g : β → List α}
    (h : ∀ b ∈ l, f b = g b) : l.flatMap f = l.flatMap g := by
  induction l with
  | nil => rfl
  | cons b rest ih =>
    simp only [List.flatMap_cons]
    rw [h b (by simp), ih fun c hc => h c (by simp [hc])]

theorem mkData_congr {d : Dimensions} {f g : (Dim → Nat) → α}
    (hnd : (labels d).Nodup)
    (h : ∀ ix, ValidIx d ix → SuppIx d ix → f ix = g ix) :
    mkData d f = mkData d g := by
  induction d generalizing f g with
  | nil =>
    simp only [mkData]
    rw [h (fun _ => 0) (by intro p hp; simp at hp) (by intro t _; rfl)]
  | cons p rest ih =>
    simp only [mkData]
    refine flatMap_congr_mem fun i hi => ?_
    have hilt : i < p.2 := List.mem_range.mp hi
    refine ih (by simpa [labels] using hnd.of_cons) fun ix hv hs => ?_
    refine h _ ?_ ?_
    · intro q hq
      rcases List.mem_cons.mp hq with hq | hq
      · subst hq; simp [hilt]
      · have hne : q.1 ≠ p.1 := by
          intro he
          have : p.1 ∈ labels rest := he ▸ List.mem_map_of_mem Prod.fst hq
          exact (List.nodup_cons.mp (by simpa [labels] using hnd)).1 this
        simpa [hne] using hv q hq
    · intro t ht
      by_cases htp : t = p.1
      · subst htp
        rw [containsD_cons] at ht
        simp at ht
      · simp only [htp, if_false]
        refine hs t ?_
        rw [containsD_cons] at ht
        intro hc
        exact ht (by simp [hc])

theorem multiIndex_flatPos_restrict {d : Dimensions} {ix : Dim → Nat}
    (hv : ValidIx d ix) (t : Dim) :
    multiIndex d (flatPos d ix) t = restrictIx d ix t := by
  induction d generalizing t with
  | nil => simp [multiIndex, flatPos, restrictIx, containsD]
  | cons p rest ih =>
    have hp := hv p (by simp)
    have hrest : ValidIx rest ix := fun q hq => hv q (by simp [hq])
    have hfr := flatPos_lt_volume hrest
    simp only [multiIndex, flatPos]
    by_cases htp : t = p.1
    · subst htp
      rw [if_pos rfl, Nat.mul_comm, Nat.mul_add_div (by omega),
        Nat.div_eq_of_lt hfr]
      simp [restrictIx, containsD]
    · rw [if_neg htp, Nat.mul_comm (ix p.1) (volume rest), Nat.mul_add_mod,
        Nat.mod_eq_of_lt hfr, ih hrest]
      have hne : ¬ p.1 = t := fun he => htp he.symm
      simp [restrictIx, containsD_cons, hne]

theorem multiIndex_flatPos {d : Dimensions} {ix : Dim → Nat}
    (hv : ValidIx d ix) (hs : SuppIx d ix) :
    multiIndex d (flatPos d ix) = ix := by
  funext t
  rw [multiIndex_flatPos_restrict hv t]
  by_cases hc : containsD d t = true
  · simp [restrictIx, hc]
  · simp only [restrictIx, hc, if_false]
    exact (hs t (by simp [hc])).symm

/-- C8 counterexample input: the constructor accepts a duplicated Dim
(the source has `// TODO Check for duplicate dimension.`), so
construction succeeds yet the result does not hold pairwise-distinct
Dims. -/
theorem mkDimensions_duplicate_accepted :
    mkDimensions [(Dim.X, 2), (Dim.X, 3)] =
      Except.ok [(Dim.X, 2), (Dim.X, 3)] ∧
    ¬ (labels [(Dim.X, 2), (Dim.X, 3)]).Nodup := by
  constructor
  · rfl
  · decide

/-- C8 (amended): constructing a `Dimensions` value fails exactly when
the list has more than 6 entries, mentions `Dim::Invalid`, or contains a
negative extent; duplicated Dims are accepted (the duplicate check is an
unimplemented TODO in dimensions.h:30), so success does not guarantee
pairwise-distinct Dims. -/
theorem mkDimensionsLoop_ok_iff (l : List (Dim × Int)) :
    (∃ d, mkDimensionsLoop l = Except.ok d) ↔
      ∀ p ∈ l, p.1 ≠ Dim.Invalid ∧ 0 ≤ p.2 := by
  induction l with
  | nil => simp [mkDimensionsLoop]
  | cons p rest ih =>
    simp only [mkDimensionsLoop]
    by_cases h1 : p.1 = Dim.Invalid
    · simp [h1]
    · by_cases h2 : p.2 < 0
      · simp only [h1, if_false, h2, if_true]
        constructor
        · intro ⟨d, hd⟩; exact absurd hd (by simp)
        · intro h
          have := (h p (by simp)).2
          omega
      · simp only [h1, if_false, h2]
        cases hres : mkDimensionsLoop rest with
        | error e =>
          rw [hres] at ih
          simp only [List.mem_cons]
          constructor
          · intro ⟨d, hd⟩; exact absurd hd (by simp)
          · intro h
            obtain ⟨d, hd⟩ := ih.mpr fun q hq => h q (Or.inr hq)
            exact absurd hd (by simp)
        | ok ds =>
          rw [hres] at ih
          simp only [List.mem_cons]
          constructor
          · intro _ q hq
            rcases hq with hq | hq
            · subst hq; exact ⟨h1, by omega⟩
            · exact (ih.mp ⟨ds, rfl⟩) q hq
          · intro _; exact ⟨_, rfl⟩

/-- C8 (amended): constructing a `Dimensions` value fails exactly when
the list has more than 6 entries, mentions `Dim::Invalid`, or contains a
negative extent; duplicated Dims are accepted (the duplicate check is an
unimplemented TODO in dimensions.h:30), so success does not guarantee
pairwise-distinct Dims. -/
theorem mkDimensions_ok_iff (l : List (Dim × Int)) :
    (∃ d, mkDimensions l = Except.ok d) ↔
      (l.length ≤ 6 ∧ ∀ p ∈ l, p.1 ≠ Dim.Invalid ∧ 0 ≤ p.2) := by
  unfold mkDimensions
  by_cases hlen : l.length > 6
  · simp only [hlen, if_true]
    constructor
    · intro ⟨d, hd⟩; exact absurd hd (by simp)
    · intro h; omega
  · simp only [hlen, if_false]
    rw [mkDimensionsLoop_ok_iff l]
    constructor
    · intro h; exact ⟨by omega, h⟩
    · intro h; exact h.2

/-- C10: equality of `ValueWithDelta<double>` (the element type of
`Coord::FuzzyTemperature` Variables, tags.h:161-164) holds iff the
absolute difference of the values is strictly below the maximum of the
deltas; it is not reflexive (any value with delta 0, in particular the
default-constructed one, is unequal to itself) and not transitive, so
element-wise comparison over this element type is approximate rather
than exact. -/
theorem vwdEq_approximate :
    (elemTypeOf TagId.CoordFuzzyTemperature = ElemType.vwd) ∧
    (∀ a b : ValueWithDelta,
      vwdEq a b = true ↔ |a.value - b.value| < max a.delta b.delta) ∧
    (∀ x : ℚ, vwdEq ⟨x, 0⟩ ⟨x, 0⟩ = false) ∧
    (vwdEq vwdDefault vwdDefault = false) ∧
    (vwdEq ⟨0, 1⟩ ⟨9/10, 1⟩ = true ∧ vwdEq ⟨9/10, 1⟩ ⟨17/10, 1⟩ = true ∧
      vwdEq ⟨0, 1⟩ ⟨17/10, 1⟩ = false) := by
  refine ⟨rfl, fun a b => by simp [vwdEq], fun x => ?_, by decide, by decide⟩
  simp [vwdEq]

theorem getD_range_map (f : Nat → α) (n q : Nat) (dflt : α) (hq : q < n) :
    ((List.range n).map f).getD q dflt = f q := by
  rw [List.getD_eq_getElem?_getD, List.getElem?_map, List.getElem?_range hq]
  rfl

/-- C3: for double-element Variables with equal units and
`lhs.dims.contains(rhs.dims)`, `operator+=` succeeds and adds to every
element of the lhs the rhs element reached by mapping the lhs index
through the rhs dimensions (stride 0 on missing Dims, transposed access
on permuted Dims); adding a rank-0 Variable adds its scalar everywhere,
and adding a transposed operand agrees with untransposed addition; when
the containment fails, the operation fails with the dimension-mismatch
error. -/
theorem plusAssign_broadcast_spec :
    (∀ (a b : Variable) (xs ys : List ℚ),
      a.dat = VarData.doubles xs → b.dat = VarData.doubles ys →
      elemTypeOf a.type = ElemType.double →
      a.unit = b.unit → containsDims a.dims b.dims = true →
      (plusAssign a b).1 = none ∧
      ((plusAssign a b).2.type = a.type ∧ (plusAssign a b).2.name = a.name ∧
        (plusAssign a b).2.unit = a.unit ∧ (plusAssign a b).2.dims = a.dims) ∧
      (∀ ix, ValidIx a.dims ix → SuppIx a.dims ix →
        (plusAssign a b).2.qIx ix = a.qIx ix + b.qIx ix)) ∧
    (∀ a b : Variable, elemTypeOf a.type = ElemType.double →
      a.unit = b.unit → ¬ containsDims a.dims b.dims = true →
      (plusAssign a b).1 = some VErr.DimensionMismatch) ∧
    (plusAssign
        ⟨TagId.DataValue, "", UnitId.Dimensionless, [(Dim.X, 2)],
          VarData.doubles [11/10, 22/10]⟩
        ⟨TagId.DataValue, "", UnitId.Dimensionless, [],
          VarData.doubles [1]⟩ =
      (none, ⟨TagId.DataValue, "", UnitId.Dimensionless, [(Dim.X, 2)],
        VarData.doubles [21/10, 32/10]⟩)) ∧
    (plusAssign
        ⟨TagId.DataValue, "", UnitId.Dimensionless,
          [(Dim.Y, 3), (Dim.X, 2)], VarData.doubles [1, 2, 3, 4, 5, 6]⟩
        ⟨TagId.DataValue, "", UnitId.Dimensionless,
          [(Dim.X, 2), (Dim.Y, 3)], VarData.doubles [1, 3, 5, 2, 4, 6]⟩ =
      (none, ⟨TagId.DataValue, "", UnitId.Dimensionless,
        [(Dim.Y, 3), (Dim.X, 2)], VarData.doubles [2, 4, 6, 8, 10, 12]⟩)) := by
  refine ⟨?_, ?_, by decide, by decide⟩
  · intro a b xs ys had hbd hdb hu hc
    have hne : ¬ (a.type = TagId.DataEvents ∨ a.type = TagId.DataTable) := by
      intro h
      rcases h with h | h <;> rw [h] at hdb <;> simp [elemTypeOf] at hdb
    have hres : plusAssign a b =
        (none, ⟨a.type, a.name, a.unit, a.dims, VarData.doubles
          (applySep (ArithOp.q ArithOp.add) 0 a.dims xs b.dims ys)⟩) := by
      unfold plusAssign
      rw [if_neg (by simp [hu]), if_pos hne, if_pos hc]
      simp only [applyArith, had, hbd]
    rw [hres]
    refine ⟨rfl, ⟨rfl, rfl, rfl, rfl⟩, fun ix hv hs => ?_⟩
    simp only [Variable.qIx, had, hbd]
    simp only [applySep]
    rw [getD_range_map _ _ _ _ (flatPos_lt_volume hv)]
    simp only [viewAt, ArithOp.q]
    rw [multiIndex_flatPos hv hs]
  · intro a b hdb hu hc
    have hne : ¬ (a.type = TagId.DataEvents ∨ a.type = TagId.DataTable) := by
      intro h
      rcases h with h | h <;> rw [h] at hdb <;> simp [elemTypeOf] at hdb
    unfold plusAssign
    rw [if_neg (by simp [hu]), if_pos hne, if_neg (by simpa using hc)]

/-- C3 witness: the rank-0 broadcast succeeds and a genuine dimension
mismatch fails, both via `plusAssign_broadcast_spec` at concrete
inputs. -/
theorem plusAssign_broadcast_spec_witness :
    (plusAssign
        ⟨TagId.DataValue, "", UnitId.Dimensionless, [(Dim.X, 2)],
          VarData.doubles [11/10, 22/10]⟩
        ⟨TagId.DataValue, "", UnitId.Dimensionless, [],
          VarData.doubles [1]⟩).1 = none ∧
    (plusAssign
        ⟨TagId.DataValue, "", UnitId.Dimensionless, [(Dim.X, 2)],
          VarData.doubles [11/10, 22/10]⟩
        ⟨TagId.DataValue, "", UnitId.Dimensionless, [(Dim.Y, 2)],
          VarData.doubles [11/10, 22/10]⟩).1 =
      some VErr.DimensionMismatch :=
  ⟨(plusAssign_broadcast_spec.1
      ⟨TagId.DataValue, "", UnitId.Dimensionless, [(Dim.X, 2)],
        VarData.doubles [11/10, 22/10]⟩
      ⟨TagId.DataValue, "", UnitId.Dimensionless, [], VarData.doubles [1]⟩
      [11/10, 22/10] [1] rfl rfl (by decide) rfl (by decide)).1,
    plusAssign_broadcast_spec.2.1
      ⟨TagId.DataValue, "", UnitId.Dimensionless, [(Dim.X, 2)],
        VarData.doubles [11/10, 22/10]⟩
      ⟨TagId.DataValue, "", UnitId.Dimensionless, [(Dim.Y, 2)],
        VarData.doubles [11/10, 22/10]⟩
      (by decide) rfl (by decide)⟩

/-- C4 counterexample: `operator*=` on two string Variables with unit
Length fails in the element phase (strings are not multipliable) but
leaves the left-hand unit already replaced by Length * Length = Area, a
partial mutation visible after the failed call. -/
theorem timesAssign_partial_unit :
    timesAssign
        ⟨TagId.DataString, "n", UnitId.Length, [(Dim.X, 1)],
          VarData.strs ["a"]⟩
        ⟨TagId.DataString, "n", UnitId.Length, [(Dim.X, 1)],
          VarData.strs ["b"]⟩ =
      (some VErr.StringsNotAddable,
        ⟨TagId.DataString, "n", UnitId.Area, [(Dim.X, 1)],
          VarData.strs ["a"]⟩) ∧
    UnitId.Area ≠ UnitId.Length := by
  exact ⟨by decide, by decide⟩

/-- C4 (amended): a failed `+=` (non-event lhs) or `-=` leaves the
left-hand Variable exactly as it was; a failed `*=` leaves data,
dimensions, name and tag unchanged, but when the failure happens in the
element phase (mismatched element types or a non-arithmetic element
type) the unit has already been replaced by `lhs.unit * rhs.unit`
(variable.cpp:794 runs before the element-wise multiplication). -/
theorem inplace_failure_states :
    (∀ (a b : Variable) (e : VErr) (a2 : Variable),
      a.type ≠ TagId.DataEvents → a.type ≠ TagId.DataTable →
      plusAssign a b = (some e, a2) → a2 = a) ∧
    (∀ (a b : Variable) (e : VErr) (a2 : Variable),
      minusAssign a b = (some e, a2) → a2 = a) ∧
    (∀ (a b : Variable) (e : VErr) (a2 : Variable),
      timesAssign a b = (some e, a2) →
      a2.dat = a.dat ∧ a2.dims = a.dims ∧ a2.name = a.name ∧
        a2.type = a.type ∧
        (a2.unit = a.unit ∨ unitMul a.unit b.unit = some a2.unit)) := by
  refine ⟨?_, ?_, ?_⟩
  · intro a b e a2 h1 h2 h
    unfold plusAssign at h
    have hne : ¬ (a.type = TagId.DataEvents ∨ a.type = TagId.DataTable) := by
      intro hh; rcases hh with hh | hh <;> [exact h1 hh; exact h2 hh]
    rw [if_pos hne] at h
    by_cases hu : a.unit ≠ b.unit
    · rw [if_pos hu] at h
      exact (Prod.mk.injEq _ _ _ _ ▸ h).2.symm
    · rw [if_neg hu] at h
      by_cases hc : containsDims a.dims b.dims = true
      · rw [if_pos hc] at h
        cases happ : applyArith ArithOp.add a.dims a.dat b.dims b.dat with
        | ok d => rw [happ] at h; exact absurd (Prod.mk.injEq _ _ _ _ ▸ h).1 (by simp)
        | error e2 => rw [happ] at h; exact (Prod.mk.injEq _ _ _ _ ▸ h).2.symm
      · rw [if_neg hc] at h
        exact (Prod.mk.injEq _ _ _ _ ▸ h).2.symm
  · intro a b e a2 h
    unfold minusAssign at h
    by_cases hu : a.unit ≠ b.unit
    · rw [if_pos hu] at h
      exact (Prod.mk.injEq _ _ _ _ ▸ h).2.symm
    · rw [if_neg hu] at h
      by_cases hc : containsDims a.dims b.dims = true
      · rw [if_pos hc] at h
        by_cases hev : a.type = TagId.DataEvents
        · rw [if_pos hev] at h
          exact (Prod.mk.injEq _ _ _ _ ▸ h).2.symm
        · rw [if_neg hev] at h
          cases happ : applyArith ArithOp.sub a.dims a.dat b.dims b.dat with
          | ok d => rw [happ] at h; exact absurd (Prod.mk.injEq _ _ _ _ ▸ h).1 (by simp)
          | error e2 => rw [happ] at h; exact (Prod.mk.injEq _ _ _ _ ▸ h).2.symm
      · rw [if_neg hc] at h
        exact (Prod.mk.injEq _ _ _ _ ▸ h).2.symm
  · intro a b e a2 h
    unfold timesAssign at h
    by_cases hc : ¬ containsDims a.dims b.dims = true
    · rw [if_pos hc] at h
      have := (Prod.mk.injEq _ _ _ _ ▸ h).2.symm
      subst this
      exact ⟨rfl, rfl, rfl, rfl, Or.inl rfl⟩
    · rw [if_neg hc] at h
      by_cases hev : a.type = TagId.DataEvents
      · rw [if_pos hev] at h
        have := (Prod.mk.injEq _ _ _ _ ▸ h).2.symm
        subst this
        exact ⟨rfl, rfl, rfl, rfl, Or.inl rfl⟩
      · rw [if_neg hev] at h
        cases hum : unitMul a.unit b.unit with
        | none =>
          rw [hum] at h
          have := (Prod.mk.injEq _ _ _ _ ▸ h).2.symm
          subst this
          exact ⟨rfl, rfl, rfl, rfl, Or.inl rfl⟩
        | some u =>
          rw [hum] at h
          cases happ : applyArith ArithOp.mul a.dims a.dat b.dims b.dat with
          | ok d =>
            rw [happ] at h
            exact absurd (Prod.mk.injEq _ _ _ _ ▸ h).1 (by simp)
          | error e2 =>
            rw [happ] at h
            have h2 := (Prod.mk.injEq _ _ _ _ ▸ h).2
            rw [← h2]
            exact ⟨rfl, rfl, rfl, rfl, Or.inr rfl⟩

/-- C4 witness: `inplace_failure_states` applied at concrete failing
inputs — a unit-mismatched `+=` and a dimension-mismatched `-=` leave
the operand untouched. -/
theorem inplace_failure_states_witness :
    (plusAssign
        ⟨TagId.DataValue, "", UnitId.Dimensionless, [(Dim.X, 1)],
          VarData.doubles [1]⟩
        ⟨TagId.DataValue, "", UnitId.Length, [(Dim.X, 1)],
          VarData.doubles [2]⟩).2 =
      ⟨TagId.DataValue, "", UnitId.Dimensionless, [(Dim.X, 1)],
        VarData.doubles [1]⟩ ∧
    (minusAssign
        ⟨TagId.DataValue, "", UnitId.Dimensionless, [(Dim.X, 1)],
          VarData.doubles [1]⟩
        ⟨TagId.DataValue, "", UnitId.Dimensionless, [(Dim.Y, 2)],
          VarData.doubles [2, 3]⟩).2 =
      ⟨TagId.DataValue, "", UnitId.Dimensionless, [(Dim.X, 1)],
        VarData.doubles [1]⟩ :=
  ⟨inplace_failure_states.1
      ⟨TagId.DataValue, "", UnitId.Dimensionless, [(Dim.X, 1)],
        VarData.doubles [1]⟩
      ⟨TagId.DataValue, "", UnitId.Length, [(Dim.X, 1)],
        VarData.doubles [2]⟩
      VErr.UnitMismatch _ (by decide) (by decide) (by decide),
    inplace_failure_states.2.1
      ⟨TagId.DataValue, "", UnitId.Dimensionless, [(Dim.X, 1)],
        VarData.doubles [1]⟩
      ⟨TagId.DataValue, "", UnitId.Dimensionless, [(Dim.Y, 2)],
        VarData.doubles [2, 3]⟩
      VErr.DimensionMismatch _ (by decide)⟩

/-- C6 counterexample: for `var` of shape (Y 2, X 2) with values
1 2 3 4, the in-place `var -= var(Dim::Y, 0)` does NOT produce the
values 0 0 2 2 the claim requires — the rhs view is not materialised. -/
theorem selfSlice_claim_false :
    (minusAssignSelfSlice
        ⟨TagId.DataValue, "", UnitId.Dimensionless,
          [(Dim.Y, 2), (Dim.X, 2)], VarData.doubles [1, 2, 3, 4]⟩
        Dim.Y 0).dat ≠ VarData.doubles [0, 0, 2, 2] := by
  decide

theorem dfind_eq_some_of_mem {d : Dimensions} {p : Dim × Nat}
    (hnd : (labels d).Nodup) (hp : p ∈ d) : dfind d p.1 = some p.2 := by
  induction d with
  | nil => simp at hp
  | cons q rest ih =>
    rcases List.mem_cons.mp hp with hq | hq
    · subst hq
      simp [dfind, List.find?_cons_of_pos]
    · have hne : q.1 ≠ p.1 := by
        intro he
        have : p.1 ∈ labels rest := List.mem_map_of_mem Prod.fst hq
        rw [← he] at this
        exact (List.nodup_cons.mp (by simpa [labels] using hnd)).1 this
      have : dfind rest p.1 = some p.2 :=
        ih (by simpa [labels] using hnd.of_cons) hq
      simpa [dfind, List.find?_cons_of_neg, hne] using this

theorem nodup_labels_cons {q : Dim × Nat} {rest : Dimensions}
    (hnd : (labels (q :: rest)).Nodup) :
    q.1 ∉ labels rest ∧ (labels rest).Nodup := by
  rw [labels, List.map_cons, List.nodup_cons] at hnd
  exact hnd

theorem containsD_eq_isSome (d : Dimensions) (t : Dim) :
    containsD d t = (dfind d t).isSome := by
  induction d with
  | nil => simp [containsD, dfind]
  | cons q rest ih =>
    by_cases hq : q.1 = t
    · simp [containsD_cons, hq, dfind, List.find?_cons_of_pos]
    · rw [containsD_cons, dfind, List.find?_cons_of_neg _ (by simpa using hq),
        decide_eq_false hq, Bool.false_or]
      exact ih

theorem containsD_of_dfind {d : Dimensions} {t : Dim} {k : Nat}
    (h : dfind d t = some k) : containsD d t = true := by
  rw [containsD_eq_isSome, h]
  rfl

theorem dfind_eq_none_of_not_contains {d : Dimensions} {t : Dim}
    (h : containsD d t = false) : dfind d t = none := by
  rw [containsD_eq_isSome] at h
  cases hf : dfind d t with
  | none => rfl
  | some k => rw [hf] at h; simp at h

theorem labels_resize (d : Dimensions) (D : Dim) (n : Nat) :
    labels (Dimensions.resize d D n) = labels d := by
  induction d with
  | nil => rfl
  | cons q rest ih =>
    by_cases hq : q.1 = D <;>
      simp_all [labels, Dimensions.resize]

theorem dfind_resize_self {d : Dimensions} {D : Dim} (n : Nat)
    (hc : containsD d D = true) :
    dfind (Dimensions.resize d D n) D = some n := by
  induction d with
  | nil => simp [containsD] at hc
  | cons q rest ih =>
    by_cases hq : q.1 = D
    · simp [Dimensions.resize, dfind, hq, List.find?_cons_of_pos]
    · rw [containsD_cons, decide_eq_false hq, Bool.false_or] at hc
      simp only [Dimensions.resize, List.map_cons, if_neg hq]
      rw [dfind, List.find?_cons_of_neg _ (by simpa using hq)]
      exact ih hc

theorem dfind_resize_other {d : Dimensions} {D t : Dim} (n : Nat)
    (ht : t ≠ D) : dfind (Dimensions.resize d D n) t = dfind d t := by
  induction d with
  | nil => rfl
  | cons q rest ih =>
    by_cases hq : q.1 = D
    · subst hq
      simp only [Dimensions.resize, List.map_cons, if_pos rfl]
      rw [dfind, List.find?_cons_of_neg _ (by simpa using fun h => ht h.symm),
        dfind, List.find?_cons_of_neg _ (by simpa using fun h => ht h.symm)]
      exact ih
    · simp only [Dimensions.resize, List.map_cons, if_neg hq]
      by_cases hqt : q.1 = t
      · simp [dfind, List.find?_cons_of_pos, hqt]
      · rw [dfind, List.find?_cons_of_neg _ (by simpa using hqt),
          dfind, List.find?_cons_of_neg _ (by simpa using hqt)]
        exact ih

theorem resize_eq_self {d : Dimensions} {D : Dim} {n : Nat}
    (hnd : (labels d).Nodup) (hD : dfind d D = some n) :
    Dimensions.resize d D n = d := by
  unfold Dimensions.resize
  have heq : ∀ p ∈ d, (if p.1 = D then (p.1, n) else p) = p := by
    intro p hp
    by_cases hq : p.1 = D
    · have h1 := dfind_eq_some_of_mem hnd hp
      rw [hq, hD] at h1
      have hp2 : p.2 = n := by
        injection h1 with h2
        exact h2.symm
      rw [if_pos hq, ← hp2]
    · rw [if_neg hq]
  calc d.map (fun p => if p.1 = D then (p.1, n) else p)
      = d.map id := List.map_congr_left fun p hp => heq p hp
    _ = d := List.map_id d

theorem mem_resize {d : Dimensions} {D : Dim} {n : Nat} {p : Dim × Nat} :
    p ∈ Dimensions.resize d D n ↔
      ∃ q ∈ d, p = if q.1 = D then (q.1, n) else q := by
  simp [Dimensions.resize, List.mem_map, eq_comm]

theorem restrictIx_eq_self {d : Dimensions} {ix : Dim → Nat}
    (hs : SuppIx d ix) : restrictIx d ix = ix := by
  funext t
  by_cases hc : containsD d t = true
  · simp [restrictIx, hc]
  · simp only [restrictIx, hc, if_false]
    exact (hs t (by simp [hc])).symm

theorem flatPos_multiIndex {d : Dimensions} {p : Nat}
    (hnd : (labels d).Nodup) (hp : p < volume d) :
    flatPos d (multiIndex d p) = p := by
  induction d generalizing p with
  | nil =>
    simp only [flatPos]
    simp [volume] at hp
    omega
  | cons q rest ih =>
    have hV : 0 < volume rest := by
      rcases Nat.eq_zero_or_pos (volume rest) with h0 | h0
      · rw [volume, h0, Nat.mul_zero] at hp; omega
      · exact h0
    have hcongr : flatPos rest (multiIndex (q :: rest) p) =
        flatPos rest (multiIndex rest (p % volume rest)) := by
      refine flatPos_congr fun t ht => ?_
      have hne : t ≠ q.1 := by
        intro he
        exact (nodup_labels_cons hnd).1 (he ▸ ht)
      simp [multiIndex, hne]
    have hhead : multiIndex (q :: rest) p q.1 = p / volume rest := by
      simp [multiIndex]
    show multiIndex (q :: rest) p q.1 * volume rest +
        flatPos rest (multiIndex (q :: rest) p) = p
    rw [hhead, hcongr, ih (nodup_labels_cons hnd).2 (Nat.mod_lt _ hV),
      Nat.mul_comm]
    exact Nat.div_add_mod p (volume rest)

theorem multiIndex_valid {d : Dimensions} {p : Nat}
    (hnd : (labels d).Nodup) (hp : p < volume d) :
    ValidIx d (multiIndex d p) := by
  induction d generalizing p with
  | nil => intro q hq; simp at hq
  | cons q rest ih =>
    have hV : 0 < volume rest := by
      rcases Nat.eq_zero_or_pos (volume rest) with h0 | h0
      · rw [volume, h0, Nat.mul_zero] at hp; omega
      · exact h0
    intro r hr
    rcases List.mem_cons.mp hr with hr | hr
    · subst hr
      have hhead : multiIndex (r :: rest) p r.1 = p / volume rest := by
        simp [multiIndex]
      rw [hhead, Nat.div_lt_iff_lt_mul hV]
      simpa [volume, Nat.mul_comm] using hp
    · have hne : r.1 ≠ q.1 := by
        intro he
        have : r.1 ∈ labels rest := List.mem_map_of_mem Prod.fst hr
        exact (nodup_labels_cons hnd).1 (he ▸ this)
      have hne2 : multiIndex (q :: rest) p r.1 =
          multiIndex rest (p % volume rest) r.1 := by
        simp [multiIndex, hne]
      rw [hne2]
      exact ih (nodup_labels_cons hnd).2 (Nat.mod_lt _ hV) r hr

theorem multiIndex_supp (d : Dimensions) (p : Nat) :
    SuppIx d (multiIndex d p) := by
  induction d generalizing p with
  | nil => intro t _; rfl
  | cons q rest ih =>
    intro t ht
    have hne : t ≠ q.1 := by
      intro he
      simp [containsD_cons, he] at ht
    have ht2 : ¬ containsD rest t = true := by
      rw [containsD_cons] at ht
      intro hc
      exact ht (by simp [hc])
    simp only [multiIndex, if_neg hne]
    exact ih _ t ht2

theorem list_eq_of_read (dflt : α) {d : Dimensions} {xs ys : List α}
    (hnd : (labels d).Nodup)
    (hlx : xs.length = volume d) (hly : ys.length = volume d)
    (h : ∀ ix, ValidIx d ix → SuppIx d ix →
      xs.getD (flatPos d ix) dflt = ys.getD (flatPos d ix) dflt) :
    xs = ys := by
  refine List.ext_getElem (by omega) fun p hpx hpy => ?_
  have hp : p < volume d := by omega
  have := h (multiIndex d p) (multiIndex_valid hnd hp) (multiIndex_supp d p)
  rw [flatPos_multiIndex hnd hp] at this
  rw [List.getD_eq_getElem?_getD, List.getD_eq_getElem?_getD] at this
  rw [List.getElem?_eq_getElem hpx, List.getElem?_eq_getElem hpy] at this
  simpa using this

theorem concatCore_getD (dflt : α) {outDims : Dimensions} {ix : Dim → Nat}
    (d1 : Dimensions) (xs : List α) (d2 : Dimensions) (ys : List α)
    (D : Dim) (e1 : Nat) (hv : ValidIx outDims ix) (hs : SuppIx outDims ix) :
    (concatCore dflt d1 xs d2 ys outDims D e1).getD (flatPos outDims ix)
        dflt =
      if ix D < e1 then xs.getD (flatPos d1 ix) dflt
      else ys.getD
        (flatPos d2 fun t => if t = D then ix D - e1 else ix t) dflt := by
  unfold concatCore
  rw [mkData_getD_flatPos _ _ hv, restrictIx_eq_self hs]

theorem sliceCore_getD (dflt : α) {outDims : Dimensions} {ix : Dim → Nat}
    (srcDims : Dimensions) (xs : List α) (D : Dim) (b : Nat)
    (hv : ValidIx outDims ix) (hs : SuppIx outDims ix) :
    (sliceCore dflt srcDims xs outDims D b).getD (flatPos outDims ix)
        dflt =
      xs.getD (flatPos srcDims fun t => if t = D then ix t + b else ix t)
        dflt := by
  unfold sliceCore
  rw [mkData_getD_flatPos _ _ hv, restrictIx_eq_self hs]

theorem concatData_ok {ad bd : VarData} (het : ad.etype = bd.etype)
    (d1 d2 od : Dimensions) (D : Dim) (e1 : Nat) :
    ∃ cd, concatData d1 ad d2 bd od D e1 = Except.ok cd ∧
      cd.length = volume od ∧ cd.etype = ad.etype ∧
      ∀ ix, ValidIx od ix → SuppIx od ix →
        cd.cell (flatPos od ix) =
          if ix D < e1 then ad.cell (flatPos d1 ix)
          else bd.cell
            (flatPos d2 fun t => if t = D then ix D - e1 else ix t) := by
  cases ad <;> cases bd <;> simp only [VarData.etype] at het <;>
    first
    | exact absurd het (by decide)
    | (refine ⟨_, rfl, mkData_length _ _, rfl, fun ix hv hs => ?_⟩
       simp only [VarData.cell]
       rw [concatCore_getD _ _ _ _ _ _ _ hv hs]
       exact apply_ite _ _ _ _)

theorem extentInt_eq (d : Dimensions) (D : Dim) :
    extentInt d D = (extOr1 d D : Int) := by
  unfold extentInt extOr1
  by_cases hc : containsD d D = true
  · simp only [hc, if_true]
    omega
  · simp [hc]

theorem extentInt_toNat (d : Dimensions) (D : Dim) :
    (extentInt d D).toNat = extOr1 d D := by
  rw [extentInt_eq]
  exact Int.toNat_natCast _

theorem extentInt_add_toNat (d1 d2 : Dimensions) (D : Dim) :
    (extentInt d1 D + extentInt d2 D).toNat = extOr1 d1 D + extOr1 d2 D := by
  rw [extentInt_eq, extentInt_eq, ← Nat.cast_add, Int.toNat_natCast]

theorem labels_concatOutDims (d1 d2 : Dimensions) (D : Dim) :
    labels (concatOutDims d1 d2 D) =
      if containsD d1 D then labels d1 else D :: labels d1 := by
  unfold concatOutDims
  by_cases hc : containsD d1 D = true
  · simp [hc, labels_resize]
  · simp [hc, Dimensions.add, labels]

theorem dfind_concatOutDims_self (d1 d2 : Dimensions) (D : Dim) :
    dfind (concatOutDims d1 d2 D) D =
      some (extOr1 d1 D + extOr1 d2 D) := by
  unfold concatOutDims
  by_cases hc : containsD d1 D = true
  · rw [if_pos hc, dfind_resize_self _ hc, extentInt_add_toNat]
  · rw [if_neg (by simpa using hc)]
    simp [Dimensions.add, dfind, List.find?_cons_of_pos,
      extentInt_add_toNat]

theorem dfind_concatOutDims_other (d1 d2 : Dimensions) {D t : Dim}
    (ht : t ≠ D) :
    dfind (concatOutDims d1 d2 D) t = dfind d1 t := by
  unfold concatOutDims
  by_cases hc : containsD d1 D = true
  · rw [if_pos hc, dfind_resize_other _ ht]
  · rw [if_neg (by simpa using hc)]
    simp only [Dimensions.add, dfind]
    rw [List.find?_cons_of_neg _ (by simpa using fun h => ht h.symm)]

theorem nodup_concatOutDims {d1 : Dimensions} (d2 : Dimensions) (D : Dim)
    (hnd : (labels d1).Nodup) :
    (labels (concatOutDims d1 d2 D)).Nodup := by
  rw [labels_concatOutDims]
  by_cases hc : containsD d1 D = true
  · simpa [hc]
  · rw [if_neg (by simpa using hc)]
    refine List.nodup_cons.mpr ⟨?_, hnd⟩
    intro hmem
    exact (by simpa using hc : ¬ _) (containsD_of_mem_labels hmem)

theorem length_filter_ne {l : List Dim} {D : Dim} (hnd : l.Nodup) :
    (l.filter fun t => !decide (t = D)).length =
      l.length - (if D ∈ l then 1 else 0) := by
  induction l with
  | nil => simp
  | cons a rest ih =>
    rcases List.nodup_cons.mp hnd with ⟨hna, hnr⟩
    by_cases ha : a = D
    · subst ha
      rw [List.filter_cons_of_neg (by simp)]
      have hall : rest.filter (fun t => !decide (t = a)) = rest := by
        refine List.filter_eq_self.mpr fun t htr => ?_
        simp only [Bool.not_eq_true']
        exact decide_eq_false fun he => hna (he ▸ htr)
      rw [hall]
      simp
    · rw [List.filter_cons_of_pos (by simpa using ha)]
      simp only [List.length_cons, ih hnr]
      by_cases hD : D ∈ rest
      · have h1 : D ∈ a :: rest := List.mem_cons_of_mem a hD
        rw [if_pos hD, if_pos h1]
        have : 1 ≤ rest.length := List.length_pos.mpr (by
          intro he; rw [he] at hD; simp at hD)
        omega
      · have h1 : D ∉ a :: rest := by
          rw [List.mem_cons]
          rintro (h | h)
          · exact ha h.symm
          · exact hD h
        rw [if_neg hD, if_neg h1]
        omega

theorem mem_labels_iff_dfind {d : Dimensions} {t : Dim} :
    t ∈ labels d ↔ (dfind d t).isSome = true := by
  rw [← containsD_iff_mem, containsD_eq_isSome]

theorem concat_size_eq {a b : Variable} {D : Dim}
    (hnda : (labels a.dims).Nodup) (hndb : (labels b.dims).Nodup)
    (hext : ∀ t, t ≠ D → dfind a.dims t = dfind b.dims t) :
    a.dims.length - (if containsD a.dims D then 1 else 0) =
      b.dims.length - (if containsD b.dims D then 1 else 0) := by
  have hmem : ∀ t, t ≠ D →
      (t ∈ labels a.dims ↔ t ∈ labels b.dims) := by
    intro t ht
    rw [mem_labels_iff_dfind, mem_labels_iff_dfind, hext t ht]
  have hsub1 : (labels a.dims).filter (fun t => !decide (t = D)) ⊆
      (labels b.dims).filter (fun t => !decide (t = D)) := by
    intro t htf
    have := List.mem_filter.mp htf
    refine List.mem_filter.mpr ⟨?_, this.2⟩
    have hne : t ≠ D := by simpa using this.2
    exact (hmem t hne).mp this.1
  have hsub2 : (labels b.dims).filter (fun t => !decide (t = D)) ⊆
      (labels a.dims).filter (fun t => !decide (t = D)) := by
    intro t htf
    have := List.mem_filter.mp htf
    refine List.mem_filter.mpr ⟨?_, this.2⟩
    have hne : t ≠ D := by simpa using this.2
    exact (hmem t hne).mpr this.1
  have hleq : ((labels a.dims).filter (fun t => !decide (t = D))).length =
      ((labels b.dims).filter (fun t => !decide (t = D))).length := by
    have h1 := (List.subperm_of_subset (hnda.filter _) hsub1).length_le
    have h2 := (List.subperm_of_subset (hndb.filter _) hsub2).length_le
    omega
  have hla : a.dims.length = (labels a.dims).length := by
    simp [labels]
  have hlb : b.dims.length = (labels b.dims).length := by
    simp [labels]
  rw [hla, hlb]
  have hca : (if containsD a.dims D then 1 else 0) =
      (if D ∈ labels a.dims then 1 else 0) := by
    by_cases h : containsD a.dims D = true
    · rw [if_pos h, if_pos (mem_labels_of_containsD h)]
    · rw [if_neg h, if_neg fun hm => h (containsD_of_mem_labels hm)]
  have hcb : (if containsD b.dims D then 1 else 0) =
      (if D ∈ labels b.dims then 1 else 0) := by
    by_cases h : containsD b.dims D = true
    · rw [if_pos h, if_pos (mem_labels_of_containsD h)]
    · rw [if_neg h, if_neg fun hm => h (containsD_of_mem_labels hm)]
  rw [hca, hcb, ← length_filter_ne hnda, ← length_filter_ne hndb, hleq]

theorem concatenate_ok {a b : Variable} {D : Dim}
    (hnda : (labels a.dims).Nodup) (hndb : (labels b.dims).Nodup)
    (het : a.dat.etype = b.dat.etype)
    (ht : a.type = b.type) (hu : a.unit = b.unit) (hn : a.name = b.name)
    (hext : ∀ t, t ≠ D → dfind a.dims t = dfind b.dims t) :
    ∃ cd, concatData a.dims a.dat b.dims b.dat
        (concatOutDims a.dims b.dims D) D (extentInt a.dims D).toNat =
        Except.ok cd ∧
      concatenate a b D = Except.ok
        ⟨a.type, a.name, a.unit, concatOutDims a.dims b.dims D, cd⟩ := by
  obtain ⟨cd, hcd, hlen, hety, hcell⟩ :=
    concatData_ok het a.dims b.dims (concatOutDims a.dims b.dims D) D
      (extentInt a.dims D).toNat
  have hall4 : (a.dims.all fun p =>
      decide (p.1 = D) || containsD b.dims p.1) = true := by
    rw [List.all_eq_true]
    intro p hp
    by_cases hpd : p.1 = D
    · simp [hpd]
    · have h1 := dfind_eq_some_of_mem hnda hp
      have h2 : dfind b.dims p.1 = some p.2 := (hext p.1 hpd) ▸ h1
      simp [containsD_of_dfind h2]
  have hall5 : (a.dims.all fun p =>
      decide (p.1 = D) || decide (dfind b.dims p.1 = some p.2)) = true := by
    rw [List.all_eq_true]
    intro p hp
    by_cases hpd : p.1 = D
    · simp [hpd]
    · have h1 := dfind_eq_some_of_mem hnda hp
      have h2 : dfind b.dims p.1 = some p.2 := (hext p.1 hpd) ▸ h1
      simp [h2]
  have hsz := concat_size_eq hnda hndb hext
  refine ⟨cd, hcd, ?_⟩
  unfold concatenate
  rw [if_neg (by simp [ht]), if_neg (by simp [hu]), if_neg (by simp [hn]),
    if_neg (not_not_intro hall4), if_neg (not_not_intro hall5),
    if_neg (not_not_intro hsz), hcd]

/-- C2: `concatenate(a, b, Dim)` on Variables with identical tag, unit
and name whose extents agree on every Dim other than the join Dim
returns a Variable whose extent along the join Dim is
`extent_or_1(a) + extent_or_1(b)` (absence counting as 1; when neither
operand mentions the Dim it is added, outermost, with extent 2), whose
other dimensions are unchanged, and whose data is a's slabs followed by
b's slabs along the join Dim; concretely, concatenating the
single-element Variables 1 and 2 along Tof gives 1 2, and concatenating
that with its reverse along Q gives shape (Q 2, Tof 2) with elements
1 2 2 1. -/
theorem concatenate_spec :
    (∀ (a b : Variable) (D : Dim),
      WFVar a → WFVar b → a.type = b.type → a.unit = b.unit →
      a.name = b.name →
      (∀ t, t ≠ D → dfind a.dims t = dfind b.dims t) →
      ∃ c, concatenate a b D = Except.ok c ∧
        c.type = a.type ∧ c.name = a.name ∧ c.unit = a.unit ∧
        dfind c.dims D = some (extOr1 a.dims D + extOr1 b.dims D) ∧
        (∀ t, t ≠ D → dfind c.dims t = dfind a.dims t) ∧
        labels c.dims =
          (if containsD a.dims D then labels a.dims
           else D :: labels a.dims) ∧
        (∀ ix, ValidIx c.dims ix → SuppIx c.dims ix →
          c.readIx ix =
            if ix D < extOr1 a.dims D then a.readIx ix
            else b.readIx
              fun t => if t = D then ix D - extOr1 a.dims D else ix t)) ∧
    (concatenate
        ⟨TagId.DataValue, "", UnitId.Length, [(Dim.Tof, 1)],
          VarData.doubles [1]⟩
        ⟨TagId.DataValue, "", UnitId.Length, [(Dim.Tof, 1)],
          VarData.doubles [2]⟩ Dim.Tof =
      Except.ok ⟨TagId.DataValue, "", UnitId.Length, [(Dim.Tof, 2)],
        VarData.doubles [1, 2]⟩) ∧
    (concatenate
        ⟨TagId.DataValue, "", UnitId.Length, [(Dim.Tof, 2)],
          VarData.doubles [1, 2]⟩
        ⟨TagId.DataValue, "", UnitId.Length, [(Dim.Tof, 2)],
          VarData.doubles [2, 1]⟩ Dim.Q =
      Except.ok ⟨TagId.DataValue, "", UnitId.Length,
        [(Dim.Q, 2), (Dim.Tof, 2)], VarData.doubles [1, 2, 2, 1]⟩) := by
  refine ⟨?_, by decide, by decide⟩
  intro a b D hwa hwb ht hu hn hext
  have het : a.dat.etype = b.dat.etype := by
    rw [hwa.2.2, hwb.2.2, ht]
  obtain ⟨cd, hcd, hmain⟩ := concatenate_ok hwa.2.1 hwb.2.1 het ht hu hn hext
  obtain ⟨cd2, hcd2, hlen, hety, hcell⟩ :=
    concatData_ok het a.dims b.dims (concatOutDims a.dims b.dims D) D
      (extentInt a.dims D).toNat
  have hcdeq : cd2 = cd := by
    rw [hcd] at hcd2
    exact (Except.ok.injEq _ _ ▸ hcd2).symm
  subst hcdeq
  refine ⟨_, hmain, rfl, rfl, rfl, ?_, ?_, ?_, ?_⟩
  · exact dfind_concatOutDims_self a.dims b.dims D
  · intro t htD
    exact dfind_concatOutDims_other a.dims b.dims htD
  · exact labels_concatOutDims a.dims b.dims D
  · intro ix hv hs
    have := hcell ix hv hs
    rw [extentInt_toNat] at this
    exact this

/-- C2 witness: `concatenate_spec` applied to the two single-element
Tof Variables of the repository test. -/
theorem concatenate_spec_witness :
    ∃ c, concatenate
        ⟨TagId.DataValue, "", UnitId.Length, [(Dim.Tof, 1)],
          VarData.doubles [1]⟩
        ⟨TagId.DataValue, "", UnitId.Length, [(Dim.Tof, 1)],
          VarData.doubles [2]⟩ Dim.Tof = Except.ok c ∧
      dfind c.dims Dim.Tof = some 2 := by
  obtain ⟨c, hc, _, _, _, hD, _⟩ :=
    concatenate_spec.1
      ⟨TagId.DataValue, "", UnitId.Length, [(Dim.Tof, 1)],
        VarData.doubles [1]⟩
      ⟨TagId.DataValue, "", UnitId.Length, [(Dim.Tof, 1)],
        VarData.doubles [2]⟩ Dim.Tof
      (by decide) (by decide) rfl rfl rfl (by decide)
  refine ⟨c, hc, ?_⟩
  rw [hD]
  decide

theorem dfind_some_mem {d : Dimensions} {t : Dim} {k : Nat}
    (h : dfind d t = some k) : (t, k) ∈ d := by
  unfold dfind at h
  cases hf : d.find? fun p => decide (p.1 = t) with
  | none => rw [hf] at h; simp at h
  | some p =>
    rw [hf] at h
    have hp : p ∈ d := List.mem_of_find?_eq_some hf
    have hpt : p.1 = t := by
      have := List.find?_some hf
      simpa using this
    have hpk : p.2 = k := by simpa using h
    rw [← hpt, ← hpk]
    exact hp

theorem validIx_resize_iff {d : Dimensions} {D : Dim} {k : Nat}
    {ix : Dim → Nat} :
    ValidIx (Dimensions.resize d D k) ix ↔
      ((∀ q ∈ d, ¬ q.1 = D → ix q.1 < q.2) ∧
        (containsD d D = true → ix D < k)) := by
  constructor
  · intro hv
    constructor
    · intro q hq hne
      have : q ∈ Dimensions.resize d D k :=
        mem_resize.mpr ⟨q, hq, by simp [hne]⟩
      exact hv q this
    · intro hc
      obtain ⟨p, hp, hpt⟩ : ∃ p ∈ d, p.1 = D := by
        simpa [containsD, List.any_eq_true] using hc
      have : (p.1, k) ∈ Dimensions.resize d D k :=
        mem_resize.mpr ⟨p, hp, by simp [hpt]⟩
      have := hv _ this
      simpa [hpt] using this
  · intro ⟨h1, h2⟩ p hp
    obtain ⟨q, hq, hpe⟩ := mem_resize.mp hp
    by_cases hqd : q.1 = D
    · rw [hpe, if_pos hqd]
      simp only [hqd]
      exact h2 (containsD_of_mem_labels (hqd ▸ List.mem_map_of_mem Prod.fst hq))
    · rw [hpe, if_neg hqd]
      exact h1 q hq hqd

theorem suppIx_of_labels_eq {d1 d2 : Dimensions} {ix : Dim → Nat}
    (h : labels d1 = labels d2) (hs : SuppIx d1 ix) : SuppIx d2 ix := by
  intro t ht
  refine hs t fun hc => ht ?_
  exact containsD_of_mem_labels (h ▸ mem_labels_of_containsD hc)

theorem resize_resize (d : Dimensions) (D : Dim) (m k : Nat) :
    Dimensions.resize (Dimensions.resize d D m) D k =
      Dimensions.resize d D k := by
  unfold Dimensions.resize
  rw [List.map_map]
  refine List.map_congr_left fun p _ => ?_
  by_cases hq : p.1 = D <;> simp [hq]

theorem sliceData_cell (srcDims od : Dimensions) (ad : VarData) (D : Dim)
    (b : Nat) :
    (sliceData srcDims ad od D b).etype = ad.etype ∧
    (sliceData srcDims ad od D b).length = volume od ∧
    ∀ ix, ValidIx od ix → SuppIx od ix →
      (sliceData srcDims ad od D b).cell (flatPos od ix) =
        ad.cell (flatPos srcDims fun t => if t = D then ix t + b else ix t) := by
  cases ad <;>
    exact ⟨rfl, mkData_length _ _, fun ix hv hs => by
      simp only [VarData.cell, sliceData]
      rw [sliceCore_getD _ _ _ _ _ hv hs]⟩

theorem varData_eq_of_read {x y : VarData} (d : Dimensions)
    (hnd : (labels d).Nodup) (hety : x.etype = y.etype)
    (hlx : x.length = volume d) (hly : y.length = volume d)
    (h : ∀ ix, ValidIx d ix → SuppIx d ix →
      x.cell (flatPos d ix) = y.cell (flatPos d ix)) : x = y := by
  have hgen : ∀ p, p < volume d → x.cell p = y.cell p := by
    intro p hp
    have := h (multiIndex d p) (multiIndex_valid hnd hp) (multiIndex_supp d p)
    rwa [flatPos_multiIndex hnd hp] at this
  cases x <;> cases y <;> simp only [VarData.etype] at hety <;>
    first
    | exact absurd hety (by decide)
    | (rename_i xs ys
       refine congrArg _ (List.ext_getElem (by
         simp only [VarData.length] at hlx hly
         omega) fun p hpx hpy => ?_)
       have hp : p < volume d := by
         simp only [VarData.length] at hlx
         omega
       have := hgen p hp
       simp only [VarData.cell] at this
       rw [List.getD_eq_getElem?_getD, List.getD_eq_getElem?_getD,
         List.getElem?_eq_getElem hpx, List.getElem?_eq_getElem hpy]
         at this
       simpa using this)

theorem sizeD_resize_self {d : Dimensions} {D : Dim} (k : Nat)
    (hc : containsD d D = true) :
    sizeD (Dimensions.resize d D k) D = k := by
  unfold sizeD
  rw [dfind_resize_self _ hc]
  rfl

theorem containsD_resize {d : Dimensions} {D : Dim} (k : Nat)
    (hc : containsD d D = true) :
    containsD (Dimensions.resize d D k) D = true := by
  rw [containsD_eq_isSome, dfind_resize_self _ hc]
  rfl

theorem extOr1_resize_self {d : Dimensions} {D : Dim} (k : Nat)
    (hc : containsD d D = true) :
    extOr1 (Dimensions.resize d D k) D = k := by
  unfold extOr1
  rw [if_pos (containsD_resize _ hc), sizeD_resize_self _ hc]

/-- Concatenating two adjacent range-slices of a Variable along the
sliced Dim reproduces the enclosing range-slice (variable.cpp `slice`
and `concatenate` compose). -/
theorem concat_slice_slice {v : Variable} {D : Dim} {n a b c : Nat}
    (hwf : WFVar v) (hD : dfind v.dims D = some n)
    (hab : a < b) (hbc : b < c) (hcn : c ≤ n) :
    concatenate (sliceRange v D a b) (sliceRange v D b c) D =
      Except.ok (sliceRange v D a c) := by
  obtain ⟨hlen, hnd, hety⟩ := hwf
  have hcont : containsD v.dims D = true := containsD_of_dfind hD
  have hne1 : b - a ≠ n := by
    intro he
    omega
  have hne2 : c - b ≠ n := by
    intro he
    omega
  have hgen : ∀ x y : Nat, y - x ≠ n →
      sliceRange v D x y = ⟨v.type, v.name, v.unit,
        Dimensions.resize v.dims D (y - x),
        sliceData v.dims v.dat (Dimensions.resize v.dims D (y - x)) D x⟩ := by
    intro x y hne
    unfold sliceRange
    rw [if_neg fun he => hne (by
      have h2 := dfind_resize_self (d := v.dims) (D := D) (y - x) hcont
      rw [he, hD] at h2
      injection h2 with h3
      exact h3.symm)]
  have hs1 := hgen a b hne1
  have hs2 := hgen b c hne2
  set d1 : Dimensions := Dimensions.resize v.dims D (b - a) with hd1
  set d2 : Dimensions := Dimensions.resize v.dims D (c - b) with hd2
  have hl1 : labels d1 = labels v.dims := labels_resize _ _ _
  have hl2 : labels d2 = labels v.dims := labels_resize _ _ _
  have hnd1 : (labels d1).Nodup := hl1 ▸ hnd
  have hnd2 : (labels d2).Nodup := hl2 ▸ hnd
  rw [hs1, hs2]
  have hext : ∀ t, t ≠ D → dfind d1 t = dfind d2 t := by
    intro t ht
    rw [hd1, hd2, dfind_resize_other _ ht, dfind_resize_other _ ht]
  have hety12 : (sliceData v.dims v.dat d1 D a).etype =
      (sliceData v.dims v.dat d2 D b).etype := by
    rw [(sliceData_cell v.dims d1 v.dat D a).1,
      (sliceData_cell v.dims d2 v.dat D b).1]
  obtain ⟨cd, hcd, hconc⟩ :=
    concatenate_ok (a := ⟨v.type, v.name, v.unit, d1,
        sliceData v.dims v.dat d1 D a⟩)
      (b := ⟨v.type, v.name, v.unit, d2, sliceData v.dims v.dat d2 D b⟩)
      (D := D) hnd1 hnd2 hety12 rfl rfl rfl hext
  obtain ⟨cd2, hcd2, hclen, hcety, hccell⟩ :=
    concatData_ok hety12 d1 d2
      (concatOutDims d1 d2 D) D (extentInt d1 D).toNat
  have hcdeq : cd2 = cd := by
    rw [hcd] at hcd2
    exact (Except.ok.injEq _ _ ▸ hcd2).symm
  subst hcdeq
  have hcont1 : containsD d1 D = true := containsD_resize _ hcont
  have he1 : extOr1 d1 D = b - a := extOr1_resize_self _ hcont
  have he2 : extOr1 d2 D = c - b := extOr1_resize_self _ hcont
  have hodeq : concatOutDims d1 d2 D = Dimensions.resize v.dims D (c - a) := by
    unfold concatOutDims
    rw [if_pos hcont1, extentInt_add_toNat, he1, he2, hd1, resize_resize]
    congr 1
    omega
  have he1N : (extentInt d1 D).toNat = b - a := by
    rw [extentInt_toNat, he1]
  set od : Dimensions := Dimensions.resize v.dims D (c - a) with hod
  have hlod : labels od = labels v.dims := labels_resize _ _ _
  have hndod : (labels od).Nodup := hlod ▸ hnd
  rw [hodeq] at hconc hccell hclen
  rw [he1N] at hccell
  -- pointwise value of the concatenated data
  have hpoint : ∀ ix, ValidIx od ix → SuppIx od ix →
      cd2.cell (flatPos od ix) =
        v.dat.cell (flatPos v.dims fun t => if t = D then ix t + a else ix t) := by
    intro ix hv hs
    rw [hccell ix hv hs]
    have hvr := validIx_resize_iff.mp hv
    have hixD : ix D < c - a := hvr.2 hcont
    by_cases hlt : ix D < b - a
    · rw [if_pos hlt]
      have hv1 : ValidIx d1 ix :=
        validIx_resize_iff.mpr ⟨hvr.1, fun _ => hlt⟩
      have hs1x : SuppIx d1 ix := suppIx_of_labels_eq (hlod.trans hl1.symm) hs
      rw [(sliceData_cell v.dims d1 v.dat D a).2.2 ix hv1 hs1x]
    · rw [if_neg hlt]
      set jx : Dim → Nat := fun t => if t = D then ix D - (b - a) else ix t
        with hjx
      have hv2 : ValidIx d2 jx := by
        refine validIx_resize_iff.mpr ⟨?_, ?_⟩
        · intro q hq hqd
          have : jx q.1 = ix q.1 := by simp [hjx, hqd]
          rw [this]
          exact hvr.1 q hq hqd
        · intro _
          have : jx D = ix D - (b - a) := by simp [hjx]
          rw [this]
          omega
      have hs2x : SuppIx d2 jx := by
        intro t ht
        have htD : t ≠ D := by
          intro he
          subst he
          rw [containsD_eq_isSome, dfind_resize_self _ hcont] at ht
          simp at ht
        have : jx t = ix t := by simp [hjx, htD]
        rw [this]
        exact suppIx_of_labels_eq (hlod.trans hl2.symm) hs t ht
      rw [(sliceData_cell v.dims d2 v.dat D b).2.2 jx hv2 hs2x]
      congr 1
      refine flatPos_congr fun t _ => ?_
      by_cases htD : t = D
      · subst htD
        simp [hjx]
        omega
      · simp [hjx, htD]
  by_cases hfull : c - a = n
  · have ha0 : a = 0 := by omega
    have hodv : od = v.dims := by
      have h5 : Dimensions.resize v.dims D (c - a) = v.dims := by
        rw [hfull]
        exact resize_eq_self hnd hD
      rw [hod]
      exact h5
    have htgt : sliceRange v D a c = v := by
      unfold sliceRange
      have h6 : Dimensions.resize v.dims D (c - a) = v.dims := by
        rw [← hod]
        exact hodv
      rw [if_pos h6]
    rw [htgt, hconc]
    have hcdv : cd2 = v.dat := by
      refine varData_eq_of_read od hndod ?_ hclen ?_ ?_
      · rw [hcety, (sliceData_cell v.dims d1 v.dat D a).1]
      · rw [hodv, hlen]
      · intro ix hv hs
        rw [hpoint ix hv hs, hodv]
        congr 1
        refine flatPos_congr fun t _ => ?_
        by_cases htD : t = D
        · subst htD; simp [ha0]
        · simp [htD]
    rw [hodv, hcdv]
  · have htgt := hgen a c hfull
    rw [htgt, hconc]
    have hcds : cd2 = sliceData v.dims v.dat od D a := by
      refine varData_eq_of_read od hndod ?_ hclen
        (sliceData_cell v.dims od v.dat D a).2.1 ?_
      · rw [hcety, (sliceData_cell v.dims d1 v.dat D a).1,
          (sliceData_cell v.dims od v.dat D a).1]
      · intro ix hv hs
        rw [hpoint ix hv hs,
          (sliceData_cell v.dims od v.dat D a).2.2 ix hv hs]
    rw [hcds]

theorem strictChain_lt {ks : List Nat} {lo hi : Nat}
    (h : strictChain lo ks hi = true) : lo < hi := by
  induction ks generalizing lo with
  | nil => simpa [strictChain] using h
  | cons k rest ih =>
    simp only [strictChain, Bool.and_eq_true, decide_eq_true_eq] at h
    exact h.1.trans (ih h.2)

theorem sizeD_eq {d : Dimensions} {D : Dim} {n : Nat}
    (hD : dfind d D = some n) : sizeD d D = n := by
  unfold sizeD
  rw [hD]
  rfl

theorem sliceRange_full {v : Variable} {D : Dim} {n : Nat}
    (hnd : (labels v.dims).Nodup) (hD : dfind v.dims D = some n) :
    sliceRange v D 0 n = v := by
  unfold sliceRange
  rw [if_pos (by
    rw [Nat.sub_zero]
    exact resize_eq_self hnd hD)]

theorem fold_splitRest {v : Variable} {D : Dim} {n : Nat}
    (hwf : WFVar v) (hD : dfind v.dims D = some n) :
    ∀ (ks : List Nat) (mid lo : Nat), lo < mid →
      strictChain mid ks n = true →
      (splitRest v D mid ks).foldlM (fun acc w => concatenate acc w D)
        (sliceRange v D lo mid) = Except.ok (sliceRange v D lo n) := by
  intro ks
  induction ks with
  | nil =>
    intro mid lo hlo hchain
    have hmid : mid < n := by simpa [strictChain] using hchain
    simp only [splitRest, sizeD_eq hD, List.foldlM_cons, List.foldlM_nil]
    rw [concat_slice_slice hwf hD hlo hmid (Nat.le_refl n)]
    rfl
  | cons k rest ih =>
    intro mid lo hlo hchain
    simp only [strictChain, Bool.and_eq_true, decide_eq_true_eq] at hchain
    have hkn : k < n := strictChain_lt hchain.2
    simp only [splitRest, List.foldlM_cons]
    rw [concat_slice_slice hwf hD hlo hchain.1 (Nat.le_of_lt hkn)]
    exact ih k lo (hlo.trans hchain.1) hchain.2

theorem length_splitRest (v : Variable) (D : Dim) :
    ∀ (ks : List Nat) (p : Nat), (splitRest v D p ks).length = ks.length + 1 := by
  intro ks
  induction ks with
  | nil => intro p; rfl
  | cons k rest ih =>
    intro p
    simp only [splitRest, List.length_cons, ih k]

/-- C9: for a Variable containing Dim `D` with extent `n` and strictly
increasing positions `0 < k1 < ... < km < n`, `split` returns `m + 1`
Variables obtained by successive range slicing, and folding
`concatenate` over them in order along `D` returns a Variable equal to
the original. -/
theorem split_concat_roundtrip :
    ∀ (v : Variable) (D : Dim) (n : Nat) (ks : List Nat),
      WFVar v → dfind v.dims D = some n → strictChain 0 ks n = true →
      (split v D ks).length = ks.length + 1 ∧
      concatList D (split v D ks) = Except.ok v := by
  intro v D n ks hwf hD hchain
  cases ks with
  | nil => exact ⟨rfl, rfl⟩
  | cons k rest =>
    simp only [strictChain, Bool.and_eq_true, decide_eq_true_eq] at hchain
    constructor
    · simp only [split, List.length_cons, length_splitRest]
    · simp only [split, concatList]
      rw [fold_splitRest hwf hD rest k 0 hchain.1 hchain.2]
      rw [sliceRange_full hwf.2.1 hD]

/-- C9 witness: `split_concat_roundtrip` on a 6-row table column split
at position 3. -/
theorem split_concat_roundtrip_witness :
    concatList Dim.Row
        (split ⟨TagId.DataValue, "d", UnitId.Dimensionless, [(Dim.Row, 6)],
          VarData.doubles [1, 2, 3, 4, 5, 6]⟩ Dim.Row [3]) =
      Except.ok ⟨TagId.DataValue, "d", UnitId.Dimensionless, [(Dim.Row, 6)],
        VarData.doubles [1, 2, 3, 4, 5, 6]⟩ :=
  (split_concat_roundtrip
    ⟨TagId.DataValue, "d", UnitId.Dimensionless, [(Dim.Row, 6)],
      VarData.doubles [1, 2, 3, 4, 5, 6]⟩ Dim.Row 6 [3]
    (by decide) (by decide) (by decide)).2

/-- C6 (amended): the right-hand side of an in-place operation aliasing
the left-hand storage is NOT materialised: the view reads values already
written by the current operation, so `var -= var(Dim::Y, 0)` on values
1 2 3 4 yields 0 0 3 4 (first slab zeroed, later slabs then subtract the
freshly written zeros) — exactly the behaviour the repository documents
in `TEST(VariableSlice, self_overlapping_view_operation_broken)`.
Subtracting the same slice taken from a copy (an owning point-slice,
`slice(var, Dim::Y, 0)`) yields the unaliased result 0 0 2 2. -/
theorem selfSlice_not_materialised :
    (minusAssignSelfSlice
        ⟨TagId.DataValue, "", UnitId.Dimensionless,
          [(Dim.Y, 2), (Dim.X, 2)], VarData.doubles [1, 2, 3, 4]⟩
        Dim.Y 0).dat = VarData.doubles [0, 0, 3, 4] ∧
    (minusAssign
        ⟨TagId.DataValue, "", UnitId.Dimensionless,
          [(Dim.Y, 2), (Dim.X, 2)], VarData.doubles [1, 2, 3, 4]⟩
        (slicePoint
          ⟨TagId.DataValue, "", UnitId.Dimensionless,
            [(Dim.Y, 2), (Dim.X, 2)], VarData.doubles [1, 2, 3, 4]⟩
          Dim.Y 0)) =
      (none, ⟨TagId.DataValue, "", UnitId.Dimensionless,
        [(Dim.Y, 2), (Dim.X, 2)], VarData.doubles [0, 0, 2, 2]⟩) := by
  exact ⟨by decide, by decide⟩

/-- C1 (code bug): the dispatch guard at variable.cpp:538 sends the case
`label(0) == dim` — the rebinned dimension OUTERMOST — to `rebinInner`,
whose arithmetic (`oldData[c * oldSize + iold]`, variable.cpp:145-146)
lays the rebinned dimension out contiguously, i.e. INNERMOST.  On 1-D
input the two coincide and the spec scenario holds: values [1, 2] from
edges [1, 2, 3] to [1, 3] give [3], matching the formula.  But on
{X: 2, Y: 2} data [1, 2, 3, 4] (X outermost) rebinning X the same way,
the code returns [3, 7] — it sums along Y within each contiguous run —
while the specified formula gives [4, 6]; the two disagree. -/
theorem rebin_outer_dim_code_bug :
    rebin (makeVariable TagId.DataValue [(Dim.X, 2)] [1, 2])
        (makeVariable TagId.CoordX [(Dim.X, 3)] [1, 2, 3])
        (makeVariable TagId.CoordX [(Dim.X, 2)] [1, 3]) =
      some (makeVariable TagId.DataValue [(Dim.X, 1)] [3]) ∧
    rebinSpecData (makeVariable TagId.DataValue [(Dim.X, 2)] [1, 2])
        [1, 2, 3] [1, 3] Dim.X = [3] ∧
    rebin (makeVariable TagId.DataValue [(Dim.X, 2), (Dim.Y, 2)] [1, 2, 3, 4])
        (makeVariable TagId.CoordX [(Dim.X, 3)] [1, 2, 3])
        (makeVariable TagId.CoordX [(Dim.X, 2)] [1, 3]) =
      some (makeVariable TagId.DataValue [(Dim.X, 1), (Dim.Y, 2)] [3, 7]) ∧
    rebinSpecData
        (makeVariable TagId.DataValue [(Dim.X, 2), (Dim.Y, 2)] [1, 2, 3, 4])
        [1, 2, 3] [1, 3] Dim.X = [4, 6] ∧
    ([3, 7] : List ℚ) ≠ [4, 6] := by
  exact ⟨by decide, by decide, by decide, by decide, by decide⟩

theorem evConcat_mkEv (l m : List ℚ) :
    evConcat (mkEv l) (mkEv m) Dim.Tof = Except.ok (mkEv (l ++ m)) := by
  simp [evConcat, evConcatVars, evVarConcat, mkEv, dimsConcat,
    Dimensions.resize, containsD, sizeD, dfind, List.length_append]

theorem eventsConcatLoop_mkEv :
    ∀ (ls ms : List (List ℚ)), ls.length = ms.length →
      eventsConcatLoop Dim.Tof (ls.map mkEv) (ms.map mkEv) =
        (none, List.zipWith (fun v w => mkEv (v ++ w)) ls ms) := by
  intro ls
  induction ls with
  | nil => intro ms h; rfl
  | cons l ls ih =>
    intro ms h
    cases ms with
    | nil => simp at h
    | cons m ms =>
      simp only [List.map_cons, eventsConcatLoop, evConcat_mkEv,
        List.zipWith_cons_cons]
      rw [ih ms (by simpa using h)]

theorem eventListLengths_mk (dd : Dimensions) (xs : List (List ℚ)) :
    eventListLengths (mkEventsVar dd xs) = xs.map List.length := by
  simp [eventListLengths, mkEventsVar, mkEv, List.map_map]

theorem zipWith_append_lengths :
    ∀ (ls ms : List (List ℚ)),
      (List.zipWith (fun v w => v ++ w) ls ms).map List.length =
        List.zipWith (fun a b => a + b) (ls.map List.length)
          (ms.map List.length) := by
  intro ls
  induction ls with
  | nil => intro ms; rfl
  | cons l ls ih =>
    intro ms
    cases ms with
    | nil => rfl
    | cons m ms => simp [ih ms, List.length_append]

/-- C5: on `Data::Events` Variables of equal (nonempty) shape, `+=`
replaces every nested event-list with the concatenation of the pair
along the list's single dimension, so per-spectrum lengths add; and on
the test scenario (two spectra with lists of lengths 10 and 20),
`d + d` gives lengths 20 and 40, a further `+= d` gives 30 and 60,
while `-=` and `*=` on events fail and leave the Variable unchanged. -/
theorem events_plusAssign_concat :
    (∀ (dd : Dimensions) (l : List ℚ) (ls : List (List ℚ))
        (m : List ℚ) (ms : List (List ℚ)),
      ls.length = ms.length →
      plusAssign (mkEventsVar dd (l :: ls)) (mkEventsVar dd (m :: ms)) =
        (none, mkEventsVar dd
          (List.zipWith (fun v w => v ++ w) (l :: ls) (m :: ms))) ∧
      eventListLengths (mkEventsVar dd
          (List.zipWith (fun v w => v ++ w) (l :: ls) (m :: ms))) =
        List.zipWith (fun a b => a + b)
          (eventListLengths (mkEventsVar dd (l :: ls)))
          (eventListLengths (mkEventsVar dd (m :: ms)))) ∧
    ((plusAssign
        (mkEventsVar [(Dim.Spectrum, 2)]
          [List.replicate 10 0, List.replicate 20 0])
        (mkEventsVar [(Dim.Spectrum, 2)]
          [List.replicate 10 0, List.replicate 20 0])).1 = none ∧
     eventListLengths
        (plusAssign
          (mkEventsVar [(Dim.Spectrum, 2)]
            [List.replicate 10 0, List.replicate 20 0])
          (mkEventsVar [(Dim.Spectrum, 2)]
            [List.replicate 10 0, List.replicate 20 0])).2 = [20, 40] ∧
     eventListLengths
        (plusAssign
          (plusAssign
            (mkEventsVar [(Dim.Spectrum, 2)]
              [List.replicate 10 0, List.replicate 20 0])
            (mkEventsVar [(Dim.Spectrum, 2)]
              [List.replicate 10 0, List.replicate 20 0])).2
          (mkEventsVar [(Dim.Spectrum, 2)]
            [List.replicate 10 0, List.replicate 20 0])).2 = [30, 60] ∧
     minusAssign
        (mkEventsVar [(Dim.Spectrum, 2)]
          [List.replicate 10 0, List.replicate 20 0])
        (mkEventsVar [(Dim.Spectrum, 2)]
          [List.replicate 10 0, List.replicate 20 0]) =
       (some VErr.EventsSubtract,
         mkEventsVar [(Dim.Spectrum, 2)]
           [List.replicate 10 0, List.replicate 20 0]) ∧
     timesAssign
        (mkEventsVar [(Dim.Spectrum, 2)]
          [List.replicate 10 0, List.replicate 20 0])
        (mkEventsVar [(Dim.Spectrum, 2)]
          [List.replicate 10 0, List.replicate 20 0]) =
       (some VErr.EventsMultiply,
         mkEventsVar [(Dim.Spectrum, 2)]
           [List.replicate 10 0, List.replicate 20 0])) := by
  constructor
  · intro dd l ls m ms h
    constructor
    · have h' := eventsConcatLoop_mkEv (l :: ls) (m :: ms) (by simpa using h)
      simp only [List.map_cons] at h'
      have hreg : ((mkEv m).registry).length = 1 := rfl
      have hlab : labelAt (mkEv l).registry 0 = some Dim.Tof := rfl
      simp [plusAssign, mkEventsVar, eventsPlus, hreg, hlab, h',
        List.map_zipWith]
    · rw [eventListLengths_mk, eventListLengths_mk, eventListLengths_mk,
        zipWith_append_lengths]
  · exact ⟨by decide, by decide, by decide, by decide, by decide⟩

/-- C5 witness: `events_plusAssign_concat` at one spectrum with event
lists `[1]` and `[2]`. -/
theorem events_plusAssign_concat_witness :
    plusAssign (mkEventsVar [(Dim.Spectrum, 1)] [[1]])
        (mkEventsVar [(Dim.Spectrum, 1)] [[2]]) =
      (none, mkEventsVar [(Dim.Spectrum, 1)] [[1, 2]]) := by
  simpa using
    (events_plusAssign_concat.1 [(Dim.Spectrum, 1)] [1] [] [2] [] rfl).1

theorem entryOk_congr {r1 r2 : Dimensions} {v : Variable} {p : Dim × Nat}
    (h : dfind r1 p.1 = dfind r2 p.1) : entryOk r1 v p = entryOk r2 v p := by
  unfold entryOk
  rw [h]

theorem labels_eraseD_sublist (r : Dimensions) (s : Dim) :
    (labels (Dimensions.eraseD r s)).Sublist (labels r) :=
  (List.filter_sublist r).map Prod.fst

theorem dfind_cons_ne {p : Dim × Nat} {rest : Dimensions} {t : Dim}
    (h : ¬ p.1 = t) : dfind (p :: rest) t = dfind rest t := by
  unfold dfind
  rw [List.find?_cons_of_neg _ (by simpa using h)]

theorem dfind_cons_eq {p : Dim × Nat} {rest : Dimensions} {t : Dim}
    (h : p.1 = t) : dfind (p :: rest) t = some p.2 := by
  unfold dfind
  rw [List.find?_cons_of_pos _ (by simpa using h)]
  rfl

theorem dfind_eraseD_other {r : Dimensions} {s t : Dim} (h : t ≠ s) :
    dfind (Dimensions.eraseD r s) t = dfind r t := by
  induction r with
  | nil => rfl
  | cons p rest ih =>
    by_cases hp : p.1 = s
    · have h1 : Dimensions.eraseD (p :: rest) s = Dimensions.eraseD rest s := by
        simp [Dimensions.eraseD, List.filter_cons, hp]
      rw [h1, ih, dfind_cons_ne fun he => h (he.symm.trans hp)]
    · have h1 : Dimensions.eraseD (p :: rest) s =
          p :: Dimensions.eraseD rest s := by
        simp [Dimensions.eraseD, List.filter_cons, hp]
      rw [h1]
      by_cases hpt : p.1 = t
      · rw [dfind_cons_eq hpt, dfind_cons_eq hpt]
      · rw [dfind_cons_ne hpt, dfind_cons_ne hpt, ih]

theorem not_mem_labels_eraseD (r : Dimensions) (s : Dim) :
    s ∉ labels (Dimensions.eraseD r s) := by
  intro h
  simp only [labels, List.mem_map] at h
  obtain ⟨p, hp, hfst⟩ := h
  simp only [Dimensions.eraseD, List.mem_filter, decide_eq_true_eq] at hp
  exact hp.2 hfst

theorem mergeEntry_cases {ws : List Variable} {v : Variable}
    {p : Dim × Nat} {reg reg2 : Dimensions}
    (h : mergeEntry ws v p reg = Except.ok reg2) :
    (dfind reg p.1 = none ∧ reg2 = Dimensions.add reg p.1 p.2) ∨
    (∃ n, dfind reg p.1 = some n ∧ reg2 = reg ∧
      (p.2 = n ∨ (dimCoordAlong v p.1 = true ∧ p.2 = n + 1))) ∨
    (∃ n, dfind reg p.1 = some n ∧ p.2 + 1 = n ∧
      reg2 = Dimensions.resize reg p.1 p.2 ∧
      ∀ w ∈ ws, containsD w.dims p.1 = true →
        dimCoordAlong w p.1 = true ∧ dfind w.dims p.1 = some n) := by
  unfold mergeEntry at h
  split at h
  · exact Or.inl ⟨by assumption, ((Except.ok.injEq _ _).mp h).symm⟩
  · rename_i n hd
    split_ifs at h with h1 h2 h3
    · exact Or.inr (Or.inl ⟨n, hd, ((Except.ok.injEq _ _).mp h).symm,
        Or.inl h1⟩)
    · exact Or.inr (Or.inl ⟨n, hd, ((Except.ok.injEq _ _).mp h).symm,
        Or.inr h2⟩)
    · refine Or.inr (Or.inr ⟨n, hd, h3.1,
        ((Except.ok.injEq _ _).mp h).symm, ?_⟩)
      intro w hw hc
      have hall := h3.2
      rw [List.all_eq_true] at hall
      have hb := hall w hw
      rw [hc] at hb
      simpa using hb

theorem mergeEntry_dfind_other {ws : List Variable} {v : Variable}
    {p : Dim × Nat} {reg reg2 : Dimensions}
    (h : mergeEntry ws v p reg = Except.ok reg2) {t : Dim} (ht : t ≠ p.1) :
    dfind reg2 t = dfind reg t := by
  rcases mergeEntry_cases h with ⟨_, rfl⟩ | ⟨n, _, rfl, _⟩ | ⟨n, _, _, rfl, _⟩
  · exact dfind_cons_ne fun he => ht he.symm
  · rfl
  · exact dfind_resize_other _ ht

theorem mergeEntry_nodup {ws : List Variable} {v : Variable}
    {p : Dim × Nat} {reg reg2 : Dimensions}
    (h : mergeEntry ws v p reg = Except.ok reg2)
    (hnd : (labels reg).Nodup) : (labels reg2).Nodup := by
  rcases mergeEntry_cases h with ⟨hn, rfl⟩ | ⟨n, _, rfl, _⟩ | ⟨n, _, _, rfl, _⟩
  · have hnm : p.1 ∉ labels reg := by
      intro hm
      rw [mem_labels_iff_dfind, hn] at hm
      cases hm
    have hlab : labels (Dimensions.add reg p.1 p.2) = p.1 :: labels reg := rfl
    rw [hlab, List.nodup_cons]
    exact ⟨hnm, hnd⟩
  · exact hnd
  · rw [labels_resize]
    exact hnd

theorem mergeEntry_labels_sub {ws : List Variable} {v : Variable}
    {p : Dim × Nat} {reg reg2 : Dimensions}
    (h : mergeEntry ws v p reg = Except.ok reg2) :
    ∀ t ∈ labels reg2, t ∈ labels reg ∨ t = p.1 := by
  intro t ht
  rcases mergeEntry_cases h with ⟨_, rfl⟩ | ⟨n, _, rfl, _⟩ | ⟨n, _, _, rfl, _⟩
  · simp only [Dimensions.add, labels, List.map_cons, List.mem_cons] at ht
    exact ht.elim (fun he => Or.inr he) Or.inl
  · exact Or.inl ht
  · rw [labels_resize] at ht
    exact Or.inl ht

theorem mergeEntry_post {ws : List Variable} {v : Variable}
    {p : Dim × Nat} {reg reg2 : Dimensions}
    (h : mergeEntry ws v p reg = Except.ok reg2) :
    entryOk reg2 v p = true := by
  rcases mergeEntry_cases h with ⟨hn, rfl⟩ | ⟨n, hd, rfl, hc⟩ |
    ⟨n, hd, he, rfl, _⟩
  · unfold entryOk
    simp only [Dimensions.add]
    rw [dfind_cons_eq rfl]
    simp
  · unfold entryOk
    rw [hd]
    rcases hc with hc | ⟨hdc, hc⟩
    · simp [hc]
    · simp [hc, hdc]
  · unfold entryOk
    rw [dfind_resize_self _ (containsD_of_dfind hd)]
    simp

theorem mergeEntry_oldvars {ws : List Variable} {v : Variable}
    {p : Dim × Nat} {reg reg2 : Dimensions}
    (h : mergeEntry ws v p reg = Except.ok reg2)
    (hwnd : ∀ w ∈ ws, (labels w.dims).Nodup)
    (hold : ∀ w ∈ ws, ∀ q ∈ w.dims, entryOk reg w q = true) :
    ∀ w ∈ ws, ∀ q ∈ w.dims, entryOk reg2 w q = true := by
  intro w hw q hq
  by_cases hqt : q.1 = p.1
  · rcases mergeEntry_cases h with ⟨hn, rfl⟩ | ⟨n, hd, rfl, _⟩ |
      ⟨n, hd, he, rfl, hall⟩
    · have := hold w hw q hq
      unfold entryOk at this
      rw [hqt, hn] at this
      cases this
    · exact hold w hw q hq
    · have hcont : containsD w.dims p.1 = true := by
        apply containsD_of_mem_labels
        rw [← hqt]
        exact List.mem_map_of_mem Prod.fst hq
      obtain ⟨hdc, hfind⟩ := hall w hw hcont
      have hds := dfind_eq_some_of_mem (hwnd w hw) hq
      rw [hqt, hfind] at hds
      have hq2 : q.2 = n := ((Option.some.injEq _ _).mp hds).symm
      have hq3 : q.2 = p.2 + 1 := by omega
      unfold entryOk
      rw [hqt, dfind_resize_self _ (containsD_of_dfind hd)]
      simp [hq3, hdc]
  · rw [entryOk_congr (mergeEntry_dfind_other h hqt)]
    exact hold w hw q hq

theorem mergeDims_spec (ws : List Variable) (v : Variable) :
    ∀ (es : List (Dim × Nat)) (reg reg2 : Dimensions),
      mergeDims ws v es reg = Except.ok reg2 →
      ((labels reg).Nodup → (labels reg2).Nodup) ∧
      (∀ t, t ∉ labels es → dfind reg2 t = dfind reg t) ∧
      (∀ t ∈ labels reg2, t ∈ labels reg ∨ t ∈ labels es) ∧
      ((∀ w ∈ ws, (labels w.dims).Nodup) →
        (∀ w ∈ ws, ∀ q ∈ w.dims, entryOk reg w q = true) →
        ∀ w ∈ ws, ∀ q ∈ w.dims, entryOk reg2 w q = true) ∧
      ((labels es).Nodup → ∀ p ∈ es, entryOk reg2 v p = true) := by
  intro es
  induction es with
  | nil =>
    intro reg reg2 h
    have : reg = reg2 := (Except.ok.injEq _ _).mp h
    subst this
    refine ⟨id, fun t _ => rfl, fun t ht => Or.inl ht,
      fun _ ho => ho, fun _ p hp => absurd hp (List.not_mem_nil p)⟩
  | cons p rest ih =>
    intro reg reg2 h
    unfold mergeDims at h
    cases hme : mergeEntry ws v p reg with
    | error e => rw [hme] at h; cases h
    | ok regMid =>
      rw [hme] at h
      obtain ⟨i1, i2, i3, i4, i5⟩ := ih regMid reg2 h
      refine ⟨fun hnd => i1 (mergeEntry_nodup hme hnd), ?_, ?_, ?_, ?_⟩
      · intro t ht
        simp only [labels, List.map_cons, List.mem_cons, not_or] at ht
        rw [i2 t (by simpa [labels] using ht.2),
          mergeEntry_dfind_other hme ht.1]
      · intro t ht
        rcases i3 t ht with h1 | h1
        · rcases mergeEntry_labels_sub hme t h1 with h2 | h2
          · exact Or.inl h2
          · exact Or.inr (by simp [labels, h2])
        · exact Or.inr (by simp [labels]; exact Or.inr (by
            simpa [labels] using h1))
      · intro hwnd hold
        exact i4 hwnd (mergeEntry_oldvars hme hwnd hold)
      · intro hnd q hq
        have hnd' := nodup_labels_cons hnd
        rcases List.mem_cons.mp hq with rfl | hq2
        · rw [entryOk_congr (i2 q.1 hnd'.1)]
          exact mergeEntry_post hme
        · exact i5 hnd'.2 q hq2

theorem dsInsert_inv {d : Dataset} {v : Variable} {d2 : Dataset}
    (hinv : datasetInv d) (hv : (labels v.dims).Nodup)
    (h : dsInsert d v = Except.ok d2) : datasetInv d2 := by
  obtain ⟨hnd, hvnd, hok, href⟩ := hinv
  unfold dsInsert at h
  split at h
  · cases h
  · split at h
    · cases h
    · split at h
      · cases h
      rename_i reg hm
      have hd2 : d2 = ⟨reg, d.vars ++ [v]⟩ :=
        ((Except.ok.injEq _ _).mp h).symm
      subst hd2
      obtain ⟨s1, s2, s3, s4, s5⟩ := mergeDims_spec d.vars v v.dims
        d.registry reg hm
      refine ⟨s1 hnd, ?_, ?_, ?_⟩
      · intro w hw
        rcases List.mem_append.mp hw with hw | hw
        · exact hvnd w hw
        · rw [List.mem_singleton.mp hw]
          exact hv
      · intro w hw q hq
        rcases List.mem_append.mp hw with hw | hw
        · exact s4 hvnd hok w hw q hq
        · rw [List.mem_singleton.mp hw] at hq ⊢
          exact s5 hv q hq
      · intro t ht
        rcases s3 t ht with h1 | h1
        · obtain ⟨w, hw, hc⟩ := href t h1
          exact ⟨w, List.mem_append.mpr (Or.inl hw), hc⟩
        · exact ⟨v, List.mem_append.mpr (Or.inr (List.mem_singleton.mpr
            rfl)), containsD_of_mem_labels h1⟩

theorem pruneReg_sublist (rest : List Variable) :
    ∀ (L : List Dim) (r : Dimensions),
      (labels (pruneReg rest L r)).Sublist (labels r) := by
  intro L
  induction L with
  | nil => intro r; exact List.Sublist.refl _
  | cons dim ds ih =>
    intro r
    unfold pruneReg
    split_ifs with hc
    · exact ih r
    · exact (ih (Dimensions.eraseD r dim)).trans
        (labels_eraseD_sublist r dim)

theorem pruneReg_dfind (rest : List Variable) :
    ∀ (L : List Dim) (r : Dimensions) (t : Dim),
      (rest.any fun w => containsD w.dims t) = true →
      dfind (pruneReg rest L r) t = dfind r t := by
  intro L
  induction L with
  | nil => intro r t _; rfl
  | cons dim ds ih =>
    intro r t ht
    unfold pruneReg
    split_ifs with hc
    · exact ih r t ht
    · rw [ih (Dimensions.eraseD r dim) t ht]
      have htd : t ≠ dim := fun he => hc (he ▸ ht)
      exact dfind_eraseD_other htd

theorem pruneReg_removes (rest : List Variable) :
    ∀ (L : List Dim) (r : Dimensions) (t : Dim), t ∈ L →
      (rest.any fun w => containsD w.dims t) = false →
      t ∉ labels (pruneReg rest L r) := by
  intro L
  induction L with
  | nil => intro r t ht; cases ht
  | cons dim ds ih =>
    intro r t ht hf
    rcases List.mem_cons.mp ht with rfl | ht2
    · unfold pruneReg
      rw [if_neg (by rw [hf]; exact fun hx => Bool.false_ne_true hx)]
      intro hm
      exact not_mem_labels_eraseD r t
        ((pruneReg_sublist rest ds (Dimensions.eraseD r t)).mem hm)
    · unfold pruneReg
      split_ifs with hc
      · exact ih r t ht2 hf
      · exact ih (Dimensions.eraseD r dim) t ht2 hf

theorem dsErase_inv {d : Dataset} {tg : TagId} {d2 : Dataset}
    (hinv : datasetInv d) (h : dsErase d tg = Except.ok d2) :
    datasetInv d2 := by
  obtain ⟨hnd, hvnd, hok, href⟩ := hinv
  unfold dsErase at h
  cases hfu : findUnique d tg with
  | error e => rw [hfu] at h; cases h
  | ok v =>
    rw [hfu] at h
    have hd2 : d2 = ⟨pruneReg (d.vars.filter fun w => ¬ w.type = tg)
        (labels v.dims) d.registry,
        d.vars.filter fun w => ¬ w.type = tg⟩ :=
      ((Except.ok.injEq _ _).mp h).symm
    subst hd2
    have hvmem : v ∈ d.vars := by
      unfold findUnique at hfu
      cases hfl : d.vars.filter fun w => w.type = tg with
      | nil => rw [hfl] at hfu; cases hfu
      | cons w ws =>
        cases ws with
        | nil =>
          rw [hfl] at hfu
          have : w = v := (Except.ok.injEq _ _).mp hfu
          subst this
          exact (List.mem_filter.mp (hfl ▸ List.mem_singleton.mpr rfl)).1
        | cons w2 ws2 => rw [hfl] at hfu; cases hfu
    have hsplit : ∀ w ∈ d.vars,
        w ∈ (d.vars.filter fun u => ¬ u.type = tg) ∨ w = v := by
      intro w hw
      by_cases hwt : w.type = tg
      · right
        have hwmf : w ∈ d.vars.filter fun u => u.type = tg := by
          rw [List.mem_filter]
          exact ⟨hw, by simpa using hwt⟩
        unfold findUnique at hfu
        cases hfl : d.vars.filter fun u => u.type = tg with
        | nil => exact absurd (hfl ▸ hwmf) (List.not_mem_nil w)
        | cons u us =>
          cases us with
          | nil =>
            rw [hfl] at hfu
            have hu : u = v := (Except.ok.injEq _ _).mp hfu
            have : w ∈ [u] := hfl ▸ hwmf
            rw [List.mem_singleton.mp this, hu]
          | cons u2 us2 => rw [hfl] at hfu; cases hfu
      · left
        rw [List.mem_filter]
        exact ⟨hw, by simpa using hwt⟩
    refine ⟨((pruneReg_sublist _ _ _).nodup hnd : _), ?_, ?_, ?_⟩
    · intro w hw
      exact hvnd w (List.mem_filter.mp hw).1
    · intro w hw q hq
      have hwmem := (List.mem_filter.mp hw).1
      have hany : ((d.vars.filter fun u => ¬ u.type = tg).any
          fun u => containsD u.dims q.1) = true := by
        rw [List.any_eq_true]
        exact ⟨w, hw, containsD_of_mem_labels
          (List.mem_map_of_mem Prod.fst hq)⟩
      rw [entryOk_congr (pruneReg_dfind _ _ _ _ hany)]
      exact hok w hwmem q hq
    · intro t ht
      by_cases hany : ((d.vars.filter fun u => ¬ u.type = tg).any
          fun u => containsD u.dims t) = true
      · rw [List.any_eq_true] at hany
        obtain ⟨w, hw, hc⟩ := hany
        exact ⟨w, hw, hc⟩
      · exfalso
        have hmem : t ∈ labels d.registry :=
          (pruneReg_sublist _ _ _).mem ht
        obtain ⟨w, hw, hc⟩ := href t hmem
        rcases hsplit w hw with hw2 | rfl
        · exact hany (List.any_eq_true.mpr ⟨w, hw2, hc⟩)
        · exact pruneReg_removes _ _ _ t (mem_labels_of_containsD hc)
            (Bool.eq_false_iff.mpr hany) ht

theorem dsMerge_inv :
    ∀ (vs : List Variable) (d d2 : Dataset), datasetInv d →
      (∀ v ∈ vs, (labels v.dims).Nodup) →
      dsMerge d vs = Except.ok d2 → datasetInv d2 := by
  intro vs
  induction vs with
  | nil =>
    intro d d2 hinv _ h
    have : d = d2 := (Except.ok.injEq _ _).mp h
    exact this ▸ hinv
  | cons v rest ih =>
    intro d d2 hinv hnd h
    unfold dsMerge at h
    cases hi : dsInsert d v with
    | error e => rw [hi] at h; cases h
    | ok dMid =>
      rw [hi] at h
      exact ih dMid d2
        (dsInsert_inv hinv (hnd v (List.mem_cons_self v rest)) hi)
        (fun w hw => hnd w (List.mem_cons_of_mem v hw)) h

/-- C7: the Dataset registry invariant — one extent per registered Dim,
every Dim of every contained Variable registered with the matching
extent (data exactly; a dimension-coordinate along the Dim may carry
the bin-edge extent `N + 1`), and every registered Dim referenced by
some Variable — holds for the empty Dataset and is preserved by
`insert`, by `erase` (which prunes the registry of Dims no longer
referenced by any remaining Variable), and by `merge`. -/
theorem dataset_registry_invariant :
    datasetInv ⟨[], []⟩ ∧
    (∀ (d : Dataset) (v : Variable) (d2 : Dataset),
      datasetInv d → (labels v.dims).Nodup →
      dsInsert d v = Except.ok d2 → datasetInv d2) ∧
    (∀ (d : Dataset) (tg : TagId) (d2 : Dataset),
      datasetInv d → dsErase d tg = Except.ok d2 → datasetInv d2) ∧
    (∀ (vs : List Variable) (d d2 : Dataset),
      datasetInv d → (∀ v ∈ vs, (labels v.dims).Nodup) →
      dsMerge d vs = Except.ok d2 → datasetInv d2) := by
  refine ⟨by decide, ?_, ?_, ?_⟩
  · intro d v d2 hinv hv h
    exact dsInsert_inv hinv hv h
  · intro d tg d2 hinv h
    exact dsErase_inv hinv h
  · intro vs d d2 hinv hnd h
    exact dsMerge_inv vs d d2 hinv hnd h

/-- C7 witness: `dataset_registry_invariant` carries the invariant
through inserting a bin-edge `Coord::X` (extent 3) after a data
Variable of extent 2 into the empty Dataset. -/
theorem dataset_registry_invariant_witness :
    datasetInv ⟨[(Dim.X, 2)],
      [makeVariable TagId.DataValue [(Dim.X, 2)] [1, 2],
       makeVariable TagId.CoordX [(Dim.X, 3)] [0, 1, 2]]⟩ :=
  dataset_registry_invariant.2.1
    ⟨[(Dim.X, 2)], [makeVariable TagId.DataValue [(Dim.X, 2)] [1, 2]]⟩
    (makeVariable TagId.CoordX [(Dim.X, 3)] [0, 1, 2])
    ⟨[(Dim.X, 2)],
      [makeVariable TagId.DataValue [(Dim.X, 2)] [1, 2],
       makeVariable TagId.CoordX [(Dim.X, 3)] [0, 1, 2]]⟩
    (by decide) (by decide) (by decide)

end DatasetProto
